import Mathlib

/-!
Verification development for the Abstrie two-stage trie pipeline
(`abstrie_core/src/trie.rs`).

Stage 1 (`TrieNode::from_sequences` / `build_segmented_trie`) builds a
segmented trie whose edges carry multi-token segments.  Stage 2
(`LengthGroupedNode::from_trie` / `transform_node_recursive` /
`merge_children_by_length_group`) collapses sibling edges by segment length.

The Rust `HashMap` children maps are modelled as association lists kept in
canonically sorted key order (insertion is `keyInsert`, which overwrites an
equal key, matching `HashMap::insert`); since the Rust code never lets the
unordered iteration order of a `HashMap` influence the resulting map (all
bulk inserts in one map are under pairwise distinct keys, and the only
overwrites happen while iterating a `BTreeSet`, which is sorted), the
canonically sorted representation computes the same map.  `BTreeSet` is
modelled as a sorted duplicate-free list (`sortKeys`).  Tokens `T` carry a
`LinearOrder` (Rust requires `Eq + Hash` for stage 1 and additionally `Ord`
for stage 2; the order is also what makes the canonical map representation
possible).
-/

namespace Abstrie

variable {T : Type} [LinearOrder T]

/-- A segment: one trie edge label, an ordered run of tokens (`Vec<T>`). -/
abbrev Seg (T : Type) := List T

/-- Sorted association map insert with overwrite on an equal key.
Models `HashMap::insert` under the canonical key order. -/
def keyInsert {K V : Type} [LinearOrder K] (k : K) (v : V) :
    List (K × V) → List (K × V)
  | [] => [(k, v)]
  | e :: rest =>
    if k < e.1 then (k, v) :: e :: rest
    else if k = e.1 then (k, v) :: rest
    else e :: keyInsert k v rest

/-- Association-list lookup (`HashMap::get`): first entry with the key. -/
def assocFind {K V : Type} [DecidableEq K] (k : K) :
    List (K × V) → Option V
  | [] => none
  | e :: rest => if e.1 = k then some e.2 else assocFind k rest

/-- Insert a list of entries into an empty sorted map. -/
def insertAll {K V : Type} [LinearOrder K] (entries : List (K × V)) :
    List (K × V) :=
  entries.foldr (fun e m => keyInsert e.1 e.2 m) []

/-- Sorted duplicate-free key insert: models `BTreeSet::insert`. -/
def setInsert {K : Type} [LinearOrder K] (k : K) : List K → List K
  | [] => [k]
  | k' :: rest =>
    if k < k' then k :: k' :: rest
    else if k = k' then k' :: rest
    else k' :: setInsert k rest

/-- Canonical sorted duplicate-free list of keys: models a `BTreeSet`
collected from a list. -/
def sortKeys {K : Type} [LinearOrder K] (l : List K) : List K :=
  l.foldr setInsert []

/-- `TrieNode<T>`: children map from segment to child node plus the
`is_terminal` flag (trie.rs lines 6-10). -/
inductive Trie (T : Type) : Type where
  | mk (children : List (Seg T × Trie T)) (isTerminal : Bool)

/-- The children map of a trie node. -/
def Trie.children : Trie T → List (Seg T × Trie T)
  | .mk cs _ => cs

/-- The `is_terminal` flag of a trie node. -/
def Trie.isTerminal : Trie T → Bool
  | .mk _ b => b

/-- Largest sequence length in a list of sequences (used as the
termination measure of the builder, not part of the Rust source). -/
def maxLen (seqs : List (List T)) : ℕ :=
  (seqs.map List.length).foldr max 0

/-- Loop body of `find_longest_common_prefix` (trie.rs lines 75-88): count
of consecutive positions from `i` at which every sequence has the same
element as `first`; `fuel` is the remaining loop range
`first.len() - i`. -/
def lcpAux (seqs : List (List T)) (first : List T) : ℕ → ℕ → ℕ
  | _, 0 => 0
  | i, fuel + 1 =>
    match first.get? i with
    | none => 0
    | some x =>
      if seqs.all fun s => decide (s.get? i = some x) then
        lcpAux seqs first (i + 1) fuel + 1
      else 0

/-- `find_longest_common_prefix` (trie.rs lines 67-91). -/
def findLongestCommonPref (seqs : List (List T)) (p : ℕ) : ℕ :=
  if seqs.length ≤ 1 then 0
  else
    match seqs with
    | [] => 0
    | first :: _ => lcpAux seqs first p (first.length - p)

/-- `all_share_prefix` test inside `find_optimal_segment`
(trie.rs lines 211-214): every sequence is long enough and carries the
same `len`-token slice at `p` as `first`. -/
def allShareSeg (seqs : List (List T)) (first : List T) (p len : ℕ) : Bool :=
  seqs.all fun s =>
    decide (p + len ≤ s.length) &&
    decide ((s.drop p).take len = (first.drop p).take len)

/-- `still_shared` test inside `find_optimal_segment`
(trie.rs lines 222-225): every sequence also carries the next token. -/
def stillSharedAt (seqs : List (List T)) (first : List T) (p len : ℕ) : Bool :=
  seqs.all fun s =>
    decide (p + len + 1 ≤ s.length) &&
    decide (s.get? (p + len) = first.get? (p + len))

/-- The `for len in 1..=N` loop of `find_optimal_segment`
(trie.rs lines 207-234), written with the loop range as structural fuel.
`acc` is the current `segment_len`. -/
def optLoop (seqs : List (List T)) (first : List T) (p N : ℕ) :
    ℕ → ℕ → ℕ → ℕ
  | 0, _, acc => acc
  | fuel + 1, len, acc =>
    if N < len then acc
    else if allShareSeg seqs first p len then
      if len < N && !stillSharedAt seqs first p len then len
      else optLoop seqs first p N fuel (len + 1) len
    else acc

/-- `find_optimal_segment` (trie.rs lines 198-237). -/
def findOptimalSegment (seqs : List (List T)) (p : ℕ) : List T :=
  match seqs with
  | [] => []
  | first :: _ =>
    (first.drop p).take (optLoop seqs first p (first.length - p)
      (first.length - p) 1 1)

/-- `is_good_segment_breakpoint` (trie.rs lines 239-275).  The `HashSet`
of next elements is modelled by `dedup` of the list of next elements. -/
def isGoodSegmentBreakpoint (segment : List T) (all : List (List T))
    (p : ℕ) : Bool :=
  let withSeg := all.filter fun s =>
    decide (p + segment.length ≤ s.length) &&
    decide ((s.drop p).take segment.length = segment)
  if withSeg.length ≤ 1 then true
  else
    decide (1 < ((withSeg.map fun s =>
      s.get? (p + segment.length)).dedup.length))

/-- The `for len in 1..=N` loop of `find_segment_until_divergence`
(trie.rs lines 184-193), with the loop range as structural fuel: the
resulting `segment_len` is the first length that is a good breakpoint,
and otherwise the full range `N`. -/
def divLoop (target : List T) (all : List (List T)) (p N : ℕ) :
    ℕ → ℕ → ℕ
  | 0, len => len
  | fuel + 1, len =>
    if isGoodSegmentBreakpoint ((target.drop p).take len) all p then len
    else if N ≤ len then len
    else divLoop target all p N fuel (len + 1)

/-- `find_segment_until_divergence` (trie.rs lines 171-196). -/
def findSegmentUntilDivergence (target : List T) (all : List (List T))
    (p : ℕ) : List T :=
  if target.length ≤ p then []
  else
    (target.drop p).take
      (divLoop target all p (target.length - p) (target.length - p) 1)

/-- The distinct first tokens at offset `p` of the sequences long enough
to have one: the key set of the `groups` map of
`build_without_common_prefix` (trie.rs lines 133-141). -/
def firstToks (seqs : List (List T)) (p : ℕ) : List T :=
  (seqs.filterMap fun s => s.get? p).dedup

omit [LinearOrder T] in
theorem le_maxLen : ∀ {seqs : List (List T)} {s : List T}, s ∈ seqs →
    s.length ≤ maxLen seqs := by
  intro seqs
  induction seqs with
  | nil => intro s h; cases h
  | cons a l ih =>
    intro s h
    rcases List.mem_cons.mp h with h | h
    · subst h; exact le_max_left _ _
    · exact le_trans (ih h) (le_max_right _ _)

omit [LinearOrder T] in
theorem maxLen_le_of_mem {seqs' seqs : List (List T)}
    (h : ∀ s ∈ seqs', s ∈ seqs) : maxLen seqs' ≤ maxLen seqs := by
  induction seqs' with
  | nil => exact Nat.zero_le _
  | cons a l ih =>
    simp only [maxLen, List.map_cons, List.foldr_cons]
    exact max_le (le_maxLen (h a (by simp)))
      (ih fun s hs => h s (List.mem_cons_of_mem _ hs))

theorem optLoop_pos {seqs : List (List T)} {first : List T} {p N : ℕ} :
    ∀ fuel len acc, 1 ≤ len → 1 ≤ acc →
      1 ≤ optLoop seqs first p N fuel len acc := by
  intro fuel
  induction fuel with
  | zero => intro len acc _ h2; exact h2
  | succ n ih =>
    intro len acc h1 h2
    simp only [optLoop]
    split
    · exact h2
    · split
      · split
        · exact h1
        · exact ih (len + 1) len (by omega) h1
      · exact h2

theorem findOptimalSegment_length_pos {g : List (List T)} {p : ℕ}
    (hne : g ≠ []) (hv : ∀ s ∈ g, p < s.length) :
    1 ≤ (findOptimalSegment g p).length := by
  match g, hne with
  | first :: rest, _ =>
    have hf : p < first.length := hv first (by simp)
    simp only [findOptimalSegment, List.length_take, List.length_drop]
    have := @optLoop_pos T _ (first :: rest) first p (first.length - p)
      (first.length - p) 1 1 le_rfl le_rfl
    omega

theorem divLoop_pos {target : List T} {all : List (List T)} {p N : ℕ} :
    ∀ fuel len, 1 ≤ len → 1 ≤ divLoop target all p N fuel len := by
  intro fuel
  induction fuel with
  | zero => intro len h; exact h
  | succ n ih =>
    intro len h
    simp only [divLoop]
    split
    · exact h
    · split
      · exact h
      · exact ih (len + 1) (by omega)

theorem findSegmentUntilDivergence_length_pos {target : List T}
    {all : List (List T)} {p : ℕ} (h : p < target.length) :
    1 ≤ (findSegmentUntilDivergence target all p).length := by
  rw [findSegmentUntilDivergence, if_neg (by omega : ¬ target.length ≤ p)]
  simp only [List.length_take, List.length_drop]
  have := @divLoop_pos T _ target all p (target.length - p)
    (target.length - p) 1 le_rfl
  omega

/-- Helper for the lexicographic termination goals of the builder. -/
theorem lexOfNat {a b c d : ℕ} (h : a < c ∨ (a = c ∧ b < d)) :
    Prod.Lex (· < ·) (· < ·) (a, b) (c, d) := by
  rcases h with h | ⟨h1, h2⟩
  · exact Prod.Lex.left _ _ h
  · subst h1; exact Prod.Lex.right _ h2

mutual

/-- `build_segmented_trie` (trie.rs lines 28-65): filter the sequences
still running at `start_pos`, mark the node terminal when some sequence
ends exactly here (note: this check sits after the early return for the
all-ended case), then branch on the longest common prefix length. -/
def buildSegmentedTrie (seqs : List (List T)) (p : ℕ) : Trie T :=
  if seqs.isEmpty then Trie.mk [] false
  else
    let valid := seqs.filter fun s => decide (p < s.length)
    if hv : valid.isEmpty then Trie.mk [] false
    else
      let isTerm := seqs.any fun s => decide (s.length = p)
      let L := findLongestCommonPref valid p
      if hL : 0 < L then
        Trie.mk
          (buildWithCommonPref valid p L hL
            (fun s hs => of_decide_eq_true (List.mem_filter.mp hs).2)
            (by simpa [List.isEmpty_iff] using hv))
          isTerm
      else
        Trie.mk (buildWithoutCommonPref valid p) isTerm
termination_by (maxLen seqs + 1 - p, 3)
decreasing_by
  · apply lexOfNat
    have hle : maxLen (seqs.filter fun s => decide (p < s.length)) ≤
        maxLen seqs :=
      maxLen_le_of_mem fun s hs => (List.mem_filter.mp hs).1
    omega
  · apply lexOfNat
    have hle : maxLen (seqs.filter fun s => decide (p < s.length)) ≤
        maxLen seqs :=
      maxLen_le_of_mem fun s hs => (List.mem_filter.mp hs).1
    omega

/-- `build_with_common_prefix` (trie.rs lines 93-126): group the
sequences by the element just after the shared prefix; a single group
absorbs the whole common prefix as one edge, more than one group falls
back to divergent segmentation.  The `groups` map key count is the
number of distinct next elements.  The two `Prop` arguments record facts
about the call site (all sequences are still running, and the list is
nonempty) that the termination measure needs. -/
def buildWithCommonPref (seqs : List (List T)) (p L : ℕ) (hL : 0 < L)
    (hv : ∀ s ∈ seqs, p < s.length) (hne : seqs ≠ []) :
    List (Seg T × Trie T) :=
  let commonSegment := ((seqs.headD []).drop p).take L
  let nexts := (seqs.map fun s => s.get? (p + L)).dedup
  if nexts.length = 1 then
    keyInsert commonSegment (buildSegmentedTrie seqs (p + L)) []
  else
    buildDivergentSegments seqs p hv
termination_by (maxLen seqs + 1 - p, 2)
decreasing_by
  · apply lexOfNat
    left
    obtain ⟨s, hs⟩ := List.exists_mem_of_ne_nil seqs hne
    have h1 : p < s.length := hv s hs
    have h2 : s.length ≤ maxLen seqs := le_maxLen hs
    omega
  · apply lexOfNat
    right
    exact ⟨rfl, by omega⟩

/-- `build_divergent_segments` (trie.rs lines 151-169): group the
sequences by their own segment-until-divergence and build one child per
group. -/
def buildDivergentSegments (seqs : List (List T)) (p : ℕ)
    (hv : ∀ s ∈ seqs, p < s.length) : List (Seg T × Trie T) :=
  let segs := (seqs.map fun s => findSegmentUntilDivergence s seqs p).dedup
  insertAll (segs.attach.map fun e =>
    (e.1, buildSegmentedTrie
      (seqs.filter fun s =>
        decide (findSegmentUntilDivergence s seqs p = e.1))
      (p + e.1.length)))
termination_by (maxLen seqs + 1 - p, 1)
decreasing_by
  apply lexOfNat
  left
  obtain ⟨target, ht, hfs⟩ := List.mem_map.mp (List.mem_dedup.mp e.2)
  have h1 : p < target.length := hv target ht
  have h2 : 1 ≤ e.1.length := by
    rw [← hfs]; exact findSegmentUntilDivergence_length_pos h1
  have h3 : maxLen (seqs.filter fun s =>
      decide (findSegmentUntilDivergence s seqs p = e.1)) ≤ maxLen seqs :=
    maxLen_le_of_mem fun s hs => (List.mem_filter.mp hs).1
  have h4 : target.length ≤ maxLen seqs := le_maxLen ht
  omega

/-- `build_without_common_prefix` (trie.rs lines 128-149): group the
sequences by their first element at `start_pos`, compute the optimal
segment of each group, and build one child per group. -/
def buildWithoutCommonPref (seqs : List (List T)) (p : ℕ) :
    List (Seg T × Trie T) :=
  insertAll ((firstToks seqs p).attach.map fun e =>
    let g := seqs.filter fun s => decide (s.get? p = some e.1)
    let seg := findOptimalSegment g p
    (seg, buildSegmentedTrie g (p + seg.length)))
termination_by (maxLen seqs + 1 - p, 1)
decreasing_by
  apply lexOfNat
  left
  obtain ⟨s, hs, hsp⟩ :=
    List.mem_filterMap.mp (List.mem_dedup.mp e.2)
  have hmem : s ∈ seqs.filter fun s => decide (s.get? p = some e.1) :=
    List.mem_filter.mpr ⟨hs, decide_eq_true hsp⟩
  have hvg : ∀ s' ∈ (seqs.filter fun s => decide (s.get? p = some e.1)),
      p < s'.length := by
    intro s' hs'
    have h := of_decide_eq_true (List.mem_filter.mp hs').2
    obtain ⟨hlt, -⟩ := List.get?_eq_some.mp h
    exact hlt
  have h2 : 1 ≤ (findOptimalSegment
      (seqs.filter fun s => decide (s.get? p = some e.1)) p).length :=
    findOptimalSegment_length_pos (List.ne_nil_of_mem hmem) hvg
  have h3 : maxLen (seqs.filter fun s => decide (s.get? p = some e.1)) ≤
      maxLen seqs :=
    maxLen_le_of_mem fun s' hs' => (List.mem_filter.mp hs').1
  have h1 : p < s.length := hvg s hmem
  have h4 : s.length ≤ maxLen seqs := le_maxLen hs
  omega

end

/-- `TrieNode::from_sequences` (trie.rs lines 24-26). -/
def fromSequences (seqs : List (List T)) : Trie T :=
  buildSegmentedTrie seqs 0

/-- Depth of a trie (termination measure for the merge recursion, not
part of the Rust source). -/
def Trie.depth : Trie T → ℕ
  | .mk cs _ => 1 + (cs.attach.map fun e => e.1.2.depth).foldr max 0
decreasing_by
  obtain ⟨⟨s, c⟩, m⟩ := e
  have h := List.sizeOf_lt_of_mem m
  simp only [Prod.mk.sizeOf_spec] at h
  simp only [Trie.mk.sizeOf_spec]
  omega

/-- Largest depth of a value of a children map. -/
def mapDepth (m : List (Seg T × Trie T)) : ℕ :=
  (m.map fun e => e.2.depth).foldr max 0

omit [LinearOrder T] in
theorem Trie.depth_mk {cs : List (Seg T × Trie T)} {b : Bool} :
    (Trie.mk cs b).depth = 1 + mapDepth cs := by
  rw [Trie.depth, mapDepth, List.attach_map_val cs fun e => e.2.depth]

omit [LinearOrder T] in
theorem le_mapDepth : ∀ {m : List (Seg T × Trie T)}
    {e : Seg T × Trie T}, e ∈ m → e.2.depth ≤ mapDepth m := by
  intro m
  induction m with
  | nil => intro e h; cases h
  | cons a l ih =>
    intro e h
    rcases List.mem_cons.mp h with h | h
    · subst h; exact le_max_left _ _
    · exact le_trans (ih h) (le_max_right _ _)

omit [LinearOrder T] in
theorem depth_lt_of_mem_children {t : Trie T} {e : Seg T × Trie T}
    (h : e ∈ t.children) : e.2.depth < t.depth := by
  obtain ⟨cs, b⟩ := t
  simp only [Trie.children] at h
  rw [Trie.depth_mk]
  have := le_mapDepth h
  omega

omit [LinearOrder T] in
theorem mapDepth_lt_of_forall {m : List (Seg T × Trie T)} {D : ℕ}
    (hne : m ≠ []) (h : ∀ e ∈ m, e.2.depth < D) : mapDepth m < D := by
  induction m with
  | nil => exact absurd rfl hne
  | cons a l ih =>
    simp only [mapDepth, List.map_cons, List.foldr_cons]
    rcases List.eq_nil_or_concat l with h0 | _
    · subst h0
      simpa [mapDepth] using h a (by simp)
    · have h1 := h a (by simp)
      by_cases hl : l = []
      · subst hl; simpa [mapDepth] using h1
      · have h2 := ih hl fun e he => h e (List.mem_cons_of_mem _ he)
        simp only [mapDepth] at h2
        omega

theorem mem_keyInsert {K V : Type} [LinearOrder K] {k : K} {v : V} :
    ∀ {m : List (K × V)} {e : K × V},
      e ∈ keyInsert k v m → e = (k, v) ∨ e ∈ m := by
  intro m
  induction m with
  | nil => intro e h; simp only [keyInsert] at h; simp at h; left; exact h
  | cons a l ih =>
    intro e h
    simp only [keyInsert] at h
    split at h
    · rcases List.mem_cons.mp h with h | h
      · left; exact h
      · right; exact h
    · split at h
      · rcases List.mem_cons.mp h with h | h
        · left; exact h
        · right; exact List.mem_cons_of_mem _ h
      · rcases List.mem_cons.mp h with h | h
        · right; exact h ▸ List.mem_cons_self _ _
        · rcases ih h with h | h
          · left; exact h
          · right; exact List.mem_cons_of_mem _ h

theorem mem_foldl_keyInsert {K V : Type} [LinearOrder K] :
    ∀ {m : List (K × V)} {acc : List (K × V)} {e : K × V},
      e ∈ m.foldl (fun a x => keyInsert x.1 x.2 a) acc →
      e ∈ acc ∨ e ∈ m := by
  intro m
  induction m with
  | nil => intro acc e h; left; exact h
  | cons a l ih =>
    intro acc e h
    simp only [List.foldl_cons] at h
    rcases ih h with h | h
    · rcases mem_keyInsert h with h | h
      · right; rw [h]; simp
      · left; exact h
    · right; exact List.mem_cons_of_mem _ h

theorem assocFind_eq_some_mem {K V : Type} [DecidableEq K] {k : K} {v : V} :
    ∀ {m : List (K × V)}, assocFind k m = some v → (k, v) ∈ m := by
  intro m
  induction m with
  | nil => intro h; simp [assocFind] at h
  | cons a l ih =>
    intro h
    simp only [assocFind] at h
    split at h
    · rename_i heq
      obtain ⟨a1, a2⟩ := a
      simp only at heq h
      injection h with h2
      rw [← heq, ← h2]
      exact List.mem_cons_self _ _
    · exact List.mem_cons_of_mem _ (ih h)

/-- The `all_grandchildren` map of `merge_children_by_length_group`
(trie.rs lines 402-417): iterate the group's segments in sorted order,
collect each found child's children, later inserts overwriting earlier
ones on an equal segment key. -/
def collectGrandchildren (original : List (Seg T × Trie T))
    (group : List (Seg T)) : List (Seg T × Trie T) :=
  group.foldl
    (fun acc seg =>
      match assocFind seg original with
      | some c => c.children.foldl (fun a x => keyInsert x.1 x.2 a) acc
      | none => acc)
    []

/-- The `any_terminal` flag of `merge_children_by_length_group`
(trie.rs lines 405-410). -/
def anyTerminalInGroup (original : List (Seg T × Trie T))
    (group : List (Seg T)) : Bool :=
  group.any fun seg =>
    match assocFind seg original with
    | some c => c.isTerminal
    | none => false

theorem mem_collectGrandchildren {original : List (Seg T × Trie T)}
    {e : Seg T × Trie T} :
    ∀ {group : List (Seg T)} {acc : List (Seg T × Trie T)},
      e ∈ group.foldl
        (fun acc seg =>
          match assocFind seg original with
          | some c => c.children.foldl (fun a x => keyInsert x.1 x.2 a) acc
          | none => acc)
        acc →
      e ∈ acc ∨ ∃ seg ∈ group, ∃ c,
        assocFind seg original = some c ∧ e ∈ c.children := by
  intro group
  induction group with
  | nil => intro acc h; left; exact h
  | cons g l ih =>
    intro acc h
    simp only [List.foldl_cons] at h
    rcases ih h with h' | h'
    · match hf : assocFind g original with
      | some c =>
        rw [hf] at h'
        rcases mem_foldl_keyInsert h' with h'' | h''
        · left; exact h''
        · right; exact ⟨g, by simp, c, hf, h''⟩
      | none => rw [hf] at h'; left; exact h'
    · right
      obtain ⟨seg, hseg, c, hc, he⟩ := h'
      exact ⟨seg, List.mem_cons_of_mem _ hseg, c, hc, he⟩

theorem mapDepth_collect_lt {original : List (Seg T × Trie T)}
    {group : List (Seg T)}
    (hne : collectGrandchildren original group ≠ []) :
    mapDepth (collectGrandchildren original group) < mapDepth original := by
  apply mapDepth_lt_of_forall hne
  intro e he
  rcases @mem_collectGrandchildren T _ original e group [] he with h | h
  · cases h
  · obtain ⟨seg, -, c, hc, hec⟩ := h
    have h1 : e.2.depth < c.depth := depth_lt_of_mem_children hec
    have h2 : c.depth ≤ mapDepth original :=
      le_mapDepth (assocFind_eq_some_mem hc)
    omega

/-- The distinct segment lengths of a children map, sorted: the key set
of the `length_groups` map (trie.rs lines 370-377 and 422-429). -/
def segLens (m : List (Seg T × Trie T)) : List ℕ :=
  sortKeys (m.map fun e => e.1.length)

/-- The `BTreeSet` of segments of one length bucket
(trie.rs lines 374-376 and 426-428). -/
def segsOfLen (m : List (Seg T × Trie T)) (l : ℕ) : List (Seg T) :=
  sortKeys ((m.map fun e => e.1).filter fun s => decide (s.length = l))

theorem mem_setInsert {K : Type} [LinearOrder K] {k x : K} :
    ∀ {l : List K}, x ∈ setInsert k l ↔ x = k ∨ x ∈ l := by
  intro l
  induction l with
  | nil => simp [setInsert]
  | cons a t ih =>
    simp only [setInsert]
    split
    · simp [List.mem_cons]
    · split
      · rename_i h1 h2
        subst h2
        simp only [List.mem_cons]
        tauto
      · simp only [List.mem_cons, ih]
        tauto

theorem mem_sortKeys {K : Type} [LinearOrder K] {x : K} :
    ∀ {l : List K}, x ∈ sortKeys l ↔ x ∈ l := by
  intro l
  induction l with
  | nil => simp [sortKeys]
  | cons a t ih =>
    simp only [sortKeys, List.foldr_cons]
    rw [show List.foldr setInsert [] t = sortKeys t from rfl] at *
    rw [mem_setInsert, ih, List.mem_cons]

omit [LinearOrder T] in
theorem segLens_nil : segLens ([] : List (Seg T × Trie T)) = [] := rfl

omit [LinearOrder T] in
theorem ne_nil_of_mem_segLens {m : List (Seg T × Trie T)} {l : ℕ}
    (h : l ∈ segLens m) : m ≠ [] := by
  intro hc
  subst hc
  rw [segLens_nil] at h
  cases h

/-- `LengthGroupKey<T>` (trie.rs lines 318-334): a segment length paired
with the `BTreeSet` of segments of that length (modelled as a sorted
duplicate-free list). -/
structure LengthGroupKey (T : Type) where
  length : ℕ
  segments : List (Seg T)
deriving DecidableEq

/-- `LengthGroupedNode<T>` (trie.rs lines 336-343). -/
inductive LengthGroupedNode (T : Type) : Type where
  | mk (children : List (LengthGroupKey T × LengthGroupedNode T))
      (isTerminal : Bool)

/-- The children map of a length-grouped node. -/
def LengthGroupedNode.children :
    LengthGroupedNode T → List (LengthGroupKey T × LengthGroupedNode T)
  | .mk cs _ => cs

/-- The `is_terminal` flag of a length-grouped node. -/
def LengthGroupedNode.isTerminal : LengthGroupedNode T → Bool
  | .mk _ b => b

/-- Sorted insert of a grouped child keyed by the bucket length (the
lengths of distinct keys produced by one node are pairwise distinct, so
ordering by length is a canonical representation of the Rust
`HashMap<LengthGroupKey, _>`). -/
def gcInsert (k : LengthGroupKey T) (v : LengthGroupedNode T) :
    List (LengthGroupKey T × LengthGroupedNode T) →
    List (LengthGroupKey T × LengthGroupedNode T)
  | [] => [(k, v)]
  | e :: rest =>
    if k.length < e.1.length then (k, v) :: e :: rest
    else if k.length = e.1.length then (k, v) :: rest
    else e :: gcInsert k v rest

/-- Insert a list of grouped children into an empty map. -/
def gcInsertAll
    (entries : List (LengthGroupKey T × LengthGroupedNode T)) :
    List (LengthGroupKey T × LengthGroupedNode T) :=
  entries.foldr (fun e m => gcInsert e.1 e.2 m) []

/-- `merge_children_by_length_group` (trie.rs lines 395-445): union the
grandchildren of all children whose segments are in the group (later
segments in the sorted group overwriting earlier ones on an equal
grandchild key), take the terminal flag as the OR over the group, then
bucket the union by segment length and recurse per bucket. -/
def mergeChildrenByLengthGroup (original : List (Seg T × Trie T))
    (group : List (Seg T)) : LengthGroupedNode T :=
  let ag := collectGrandchildren original group
  LengthGroupedNode.mk
    (gcInsertAll ((segLens ag).attach.map fun e =>
      (⟨e.1, segsOfLen ag e.1⟩,
        mergeChildrenByLengthGroup ag (segsOfLen ag e.1))))
    (anyTerminalInGroup original group)
termination_by mapDepth original
decreasing_by
  exact mapDepth_collect_lt (ne_nil_of_mem_segLens e.2)

/-- `transform_node_recursive` (trie.rs lines 360-393): copy the
terminal flag, bucket the children by segment length, and build one
merged child per bucket. -/
def transformNodeRecursive (t : Trie T) : LengthGroupedNode T :=
  if t.children.isEmpty then LengthGroupedNode.mk [] t.isTerminal
  else
    LengthGroupedNode.mk
      (gcInsertAll ((segLens t.children).map fun l =>
        (⟨l, segsOfLen t.children l⟩,
          mergeChildrenByLengthGroup t.children (segsOfLen t.children l))))
      t.isTerminal

/-- `LengthGroupedNode::from_trie` (trie.rs lines 356-358). -/
def fromTrie (t : Trie T) : LengthGroupedNode T :=
  transformNodeRecursive t

theorem buildSegmentedTrie_eq_leaf {seqs : List (List T)} {p : ℕ}
    (h : seqs.filter (fun s => decide (p < s.length)) = []) :
    buildSegmentedTrie seqs p = Trie.mk [] false := by
  rw [buildSegmentedTrie]
  split
  · rfl
  · simp only [h, List.isEmpty_nil, dite_true]

theorem buildSegmentedTrie_eq_pos {seqs : List (List T)} {p : ℕ}
    (hv : (seqs.filter fun s => decide (p < s.length)) ≠ [])
    (hpos : 0 < findLongestCommonPref
      (seqs.filter fun s => decide (p < s.length)) p) :
    buildSegmentedTrie seqs p =
      Trie.mk
        (buildWithCommonPref (seqs.filter fun s => decide (p < s.length)) p
          (findLongestCommonPref (seqs.filter fun s => decide (p < s.length)) p)
          hpos (fun s hs => of_decide_eq_true (List.mem_filter.mp hs).2) hv)
        (seqs.any fun s => decide (s.length = p)) := by
  rw [buildSegmentedTrie]
  rw [if_neg (by simp; intro hc; subst hc; simp at hv)]
  rw [dif_neg (by simpa using hv), dif_pos hpos]

theorem buildSegmentedTrie_eq_zero {seqs : List (List T)} {p : ℕ}
    (hv : (seqs.filter fun s => decide (p < s.length)) ≠ [])
    (hz : findLongestCommonPref
      (seqs.filter fun s => decide (p < s.length)) p = 0) :
    buildSegmentedTrie seqs p =
      Trie.mk
        (buildWithoutCommonPref (seqs.filter fun s => decide (p < s.length)) p)
        (seqs.any fun s => decide (s.length = p)) := by
  rw [buildSegmentedTrie]
  rw [if_neg (by simp; intro hc; subst hc; simp at hv)]
  rw [dif_neg (by simpa using hv), dif_neg (by omega)]

theorem buildWithCommonPref_eq_single {seqs : List (List T)} {p L : ℕ}
    {hL : 0 < L} {hv : ∀ s ∈ seqs, p < s.length} {hne : seqs ≠ []}
    (h : ((seqs.map fun s => s.get? (p + L)).dedup).length = 1) :
    buildWithCommonPref seqs p L hL hv hne =
      [(((seqs.headD []).drop p).take L, buildSegmentedTrie seqs (p + L))] := by
  rw [buildWithCommonPref]
  simp only [h, if_pos]
  rfl

theorem buildWithCommonPref_eq_div {seqs : List (List T)} {p L : ℕ}
    {hL : 0 < L} {hv : ∀ s ∈ seqs, p < s.length} {hne : seqs ≠ []}
    (h : ((seqs.map fun s => s.get? (p + L)).dedup).length ≠ 1) :
    buildWithCommonPref seqs p L hL hv hne =
      buildDivergentSegments seqs p hv := by
  rw [buildWithCommonPref]
  simp only [if_neg h]

theorem buildDivergentSegments_eq {seqs : List (List T)} {p : ℕ}
    {hv : ∀ s ∈ seqs, p < s.length} :
    buildDivergentSegments seqs p hv =
      insertAll
        (((seqs.map fun s => findSegmentUntilDivergence s seqs p).dedup).map
          fun seg =>
            (seg, buildSegmentedTrie
              (seqs.filter fun s =>
                decide (findSegmentUntilDivergence s seqs p = seg))
              (p + seg.length))) := by
  rw [buildDivergentSegments]
  exact congrArg insertAll (List.attach_map_val _ fun seg =>
    (seg, buildSegmentedTrie
      (seqs.filter fun s =>
        decide (findSegmentUntilDivergence s seqs p = seg))
      (p + seg.length)))

theorem buildWithoutCommonPref_eq {seqs : List (List T)} {p : ℕ} :
    buildWithoutCommonPref seqs p =
      insertAll ((firstToks seqs p).map fun t =>
        (findOptimalSegment (seqs.filter fun s => decide (s.get? p = some t)) p,
         buildSegmentedTrie (seqs.filter fun s => decide (s.get? p = some t))
           (p + (findOptimalSegment
             (seqs.filter fun s => decide (s.get? p = some t)) p).length))) := by
  rw [buildWithoutCommonPref]
  exact congrArg insertAll (List.attach_map_val _ fun t =>
    let g := seqs.filter fun s => decide (s.get? p = some t)
    let seg := findOptimalSegment g p
    (seg, buildSegmentedTrie g (p + seg.length)))

theorem mergeChildrenByLengthGroup_eq {original : List (Seg T × Trie T)}
    {group : List (Seg T)} :
    mergeChildrenByLengthGroup original group =
      LengthGroupedNode.mk
        (gcInsertAll
          ((segLens (collectGrandchildren original group)).map fun l =>
            (⟨l, segsOfLen (collectGrandchildren original group) l⟩,
              mergeChildrenByLengthGroup
                (collectGrandchildren original group)
                (segsOfLen (collectGrandchildren original group) l))))
        (anyTerminalInGroup original group) := by
  rw [mergeChildrenByLengthGroup]
  congr 1
  exact congrArg gcInsertAll (List.attach_map_val _ fun l =>
    (LengthGroupKey.mk l (segsOfLen (collectGrandchildren original group) l),
      mergeChildrenByLengthGroup (collectGrandchildren original group)
        (segsOfLen (collectGrandchildren original group) l)))

/-- Does some root path of the trie spell exactly `s` by concatenating
edge labels and end at a node whose terminal flag is set?  (The
round-trip reading of the spec: `s` is represented and ends at a
terminal node.) -/
def reachesTerminal (t : Trie T) (s : List T) : Bool :=
  match t with
  | .mk cs b =>
    if s.isEmpty then b
    else
      cs.attach.any fun e =>
        e.1.1.isPrefixOf s && reachesTerminal e.1.2 (s.drop e.1.1.length)
decreasing_by
  obtain ⟨⟨sg, c⟩, m⟩ := e
  have h := List.sizeOf_lt_of_mem m
  simp only [Prod.mk.sizeOf_spec] at h
  simp only [Trie.mk.sizeOf_spec]
  omega

/-- Number of nodes of the segmented trie whose terminal flag is set. -/
def Trie.terminalCount : Trie T → ℕ
  | .mk cs b =>
    (cond b 1 0) +
      (cs.attach.map fun e => e.1.2.terminalCount).foldr (· + ·) 0
decreasing_by
  obtain ⟨⟨sg, c⟩, m⟩ := e
  have h := List.sizeOf_lt_of_mem m
  simp only [Prod.mk.sizeOf_spec] at h
  simp only [Trie.mk.sizeOf_spec]
  omega

/-- Number of nodes of the length-grouped trie whose terminal flag is
set. -/
def LengthGroupedNode.terminalCount : LengthGroupedNode T → ℕ
  | .mk cs b =>
    (cond b 1 0) +
      (cs.attach.map fun e => e.1.2.terminalCount).foldr (· + ·) 0
decreasing_by
  obtain ⟨⟨sg, c⟩, m⟩ := e
  have h := List.sizeOf_lt_of_mem m
  simp only [Prod.mk.sizeOf_spec] at h
  simp only [LengthGroupedNode.mk.sizeOf_spec]
  omega

/-- C1: the claim says a node's terminal flag is true iff some input
sequence ends exactly at that node, and in particular that
`from_sequences(["a"])` yields one edge to a *terminal* leaf.  The code
returns the leaf non-terminal: `build_segmented_trie` returns early for
the all-sequences-ended case (trie.rs lines 41-43) before the terminal
check (lines 46-51), so a node at which *all* remaining sequences end is
never marked.  This theorem evaluates the build at the failing input
(token `0` standing for "a"): the leaf ending the input sequence carries
`false`. -/
theorem claim1_singleton_leaf_not_terminal :
    fromSequences [[(0 : ℕ)]] = Trie.mk [([0], Trie.mk [] false)] false := by
  rw [fromSequences]
  simp +decide [buildSegmentedTrie_eq_leaf, buildSegmentedTrie_eq_pos,
    buildSegmentedTrie_eq_zero, buildWithCommonPref_eq_single,
    buildWithCommonPref_eq_div, buildDivergentSegments_eq,
    buildWithoutCommonPref_eq, insertAll, keyInsert, firstToks,
    findOptimalSegment, optLoop, allShareSeg, stillSharedAt,
    findSegmentUntilDivergence, divLoop, isGoodSegmentBreakpoint]

/-- C2: the claim says every input sequence is spelled by exactly one
root path ending at a terminal node.  For the input `[[0]]` the unique
path spelling `[0]` exists but ends at a non-terminal node (same early
return as C1, trie.rs lines 41-51), so the round-trip property fails at
its terminal half. -/
theorem claim2_roundtrip_not_terminal :
    reachesTerminal (fromSequences [[(0 : ℕ)]]) [0] = false := by
  rw [claim1_singleton_leaf_not_terminal]
  simp +decide [reachesTerminal]

/-- C4: for `["ape","app","application"]` the builder does produce the
branch at the "ap" boundary (edge `"ap"`, then diverging edges `"e"` and
`"p"`), but the terminal flags do not land on the three claimed nodes:
only the node completing "app" is marked (some sequence ends there while
another continues), whereas the leaves completing "ape" and
"application" stay `false` because of the early return of
`build_segmented_trie` (trie.rs lines 41-51). -/
theorem claim4_ape_app_application :
    fromSequences
      [['a', 'p', 'e'], ['a', 'p', 'p'],
       ['a', 'p', 'p', 'l', 'i', 'c', 'a', 't', 'i', 'o', 'n']] =
      Trie.mk
        [(['a', 'p'],
          Trie.mk
            [(['e'], Trie.mk [] false),
             (['p'],
              Trie.mk [(['l', 'i', 'c', 'a', 't', 'i', 'o', 'n'],
                Trie.mk [] false)] true)]
            false)]
        false := by
  rw [fromSequences]
  simp +decide [buildSegmentedTrie_eq_leaf, buildSegmentedTrie_eq_pos,
    buildSegmentedTrie_eq_zero, buildWithCommonPref_eq_single,
    buildWithCommonPref_eq_div, buildDivergentSegments_eq,
    buildWithoutCommonPref_eq, insertAll, keyInsert, firstToks,
    findOptimalSegment, optLoop, allShareSeg, stillSharedAt,
    findSegmentUntilDivergence, divLoop, isGoodSegmentBreakpoint]

/-- C8: both stages are total Lean functions (well-founded recursion:
the builder's offset strictly increases because every emitted segment is
non-empty, and the merge recursion descends to strictly shallower
grandchild maps); the last two conjuncts state those two descent facts
directly. -/
theorem claim8_both_stages_terminate :
    (∀ (seqs : List (List T)) (p : ℕ), ∃ t, buildSegmentedTrie seqs p = t) ∧
    (∀ t : Trie T, ∃ g, fromTrie t = g) ∧
    (∀ (target : List T) (all : List (List T)) (p : ℕ),
      target.length ≤ p ∨
        1 ≤ (findSegmentUntilDivergence target all p).length) ∧
    (∀ (original : List (Seg T × Trie T)) (group : List (Seg T)),
      collectGrandchildren original group = [] ∨
        mapDepth (collectGrandchildren original group) <
          mapDepth original) := by
  refine ⟨fun seqs p => ⟨_, rfl⟩, fun t => ⟨_, rfl⟩, ?_, ?_⟩
  · intro target all p
    by_cases h : target.length ≤ p
    · left; exact h
    · right; exact findSegmentUntilDivergence_length_pos (by omega)
  · intro original group
    by_cases h : collectGrandchildren original group = []
    · left; exact h
    · right; exact mapDepth_collect_lt h

omit [LinearOrder T] in
theorem mem_gcInsert {k : LengthGroupKey T} {v : LengthGroupedNode T} :
    ∀ {m : List (LengthGroupKey T × LengthGroupedNode T)}
      {e : LengthGroupKey T × LengthGroupedNode T},
      e ∈ gcInsert k v m → e = (k, v) ∨ e ∈ m := by
  intro m
  induction m with
  | nil =>
    intro e h
    simp only [gcInsert] at h
    left
    simpa using h
  | cons a l ih =>
    intro e h
    simp only [gcInsert] at h
    split at h
    · rcases List.mem_cons.mp h with h | h
      · left; exact h
      · right; exact h
    · split at h
      · rcases List.mem_cons.mp h with h | h
        · left; exact h
        · right; exact List.mem_cons_of_mem _ h
      · rcases List.mem_cons.mp h with h | h
        · right; exact h ▸ List.mem_cons_self _ _
        · rcases ih h with h | h
          · left; exact h
          · right; exact List.mem_cons_of_mem _ h

theorem mem_gcInsertAll :
    ∀ {entries : List (LengthGroupKey T × LengthGroupedNode T)}
      {e : LengthGroupKey T × LengthGroupedNode T},
      e ∈ gcInsertAll entries → e ∈ entries := by
  intro entries
  induction entries with
  | nil => intro e h; exact absurd h (by simp [gcInsertAll])
  | cons a l ih =>
    intro e h
    simp only [gcInsertAll, List.foldr_cons] at h
    rcases mem_gcInsert h with h | h
    · simp [h]
    · exact List.mem_cons_of_mem _ (ih h)

theorem gcSorted_gcInsert {k : LengthGroupKey T} {v : LengthGroupedNode T} :
    ∀ {m : List (LengthGroupKey T × LengthGroupedNode T)},
      m.Pairwise (fun a b => a.1.length < b.1.length) →
      (gcInsert k v m).Pairwise (fun a b => a.1.length < b.1.length) := by
  intro m
  induction m with
  | nil => intro _; simp [gcInsert]
  | cons a l ih =>
    intro h
    rcases List.pairwise_cons.mp h with ⟨ha, hl⟩
    simp only [gcInsert]
    split
    · rename_i hlt
      refine List.pairwise_cons.mpr ⟨?_, h⟩
      intro e he
      rcases List.mem_cons.mp he with he | he
      · subst he; exact hlt
      · exact lt_trans hlt (ha e he)
    · split
      · rename_i hlt heq
        refine List.pairwise_cons.mpr ⟨?_, hl⟩
        intro e he
        rw [heq]
        exact ha e he
      · rename_i hlt heq
        refine List.pairwise_cons.mpr ⟨?_, ih hl⟩
        intro e he
        rcases mem_gcInsert he with he | he
        · subst he; show a.1.length < k.length; omega
        · exact ha e he

theorem gcSorted_gcInsertAll
    {entries : List (LengthGroupKey T × LengthGroupedNode T)} :
    (gcInsertAll entries).Pairwise
      (fun a b => a.1.length < b.1.length) := by
  induction entries with
  | nil => simp [gcInsertAll]
  | cons a l ih =>
    simp only [gcInsertAll, List.foldr_cons]
    exact gcSorted_gcInsert ih

theorem length_of_mem_segsOfLen {m : List (Seg T × Trie T)} {l : ℕ}
    {s : Seg T} (h : s ∈ segsOfLen m l) : s.length = l := by
  have h2 := mem_sortKeys.mp h
  have h3 := List.mem_filter.mp h2
  exact of_decide_eq_true h3.2

/-- Well-formedness of a length-grouped tree: at every node the child
keys carry pairwise distinct lengths, and every segment in a key's
segment-set has exactly the key's length. -/
inductive LengthGroupedNode.Wf : LengthGroupedNode T → Prop where
  | mk : ∀ {cs : List (LengthGroupKey T × LengthGroupedNode T)} {b : Bool},
      cs.Pairwise (fun e1 e2 => e1.1.length ≠ e2.1.length) →
      (∀ e ∈ cs, ∀ s ∈ e.1.segments, s.length = e.1.length) →
      (∀ e ∈ cs, Wf e.2) → Wf (.mk cs b)

theorem wf_parts (m : List (Seg T × Trie T)) (b : Bool)
    (hrec : ∀ l ∈ segLens m,
      (mergeChildrenByLengthGroup m (segsOfLen m l)).Wf) :
    (LengthGroupedNode.mk
      (gcInsertAll ((segLens m).map fun l =>
        (⟨l, segsOfLen m l⟩, mergeChildrenByLengthGroup m (segsOfLen m l))))
      b).Wf := by
  refine LengthGroupedNode.Wf.mk ?_ ?_ ?_
  · exact gcSorted_gcInsertAll.imp fun h => by omega
  · intro e he s hs
    rcases List.mem_map.mp (mem_gcInsertAll he) with ⟨l, hl, hme⟩
    rw [← hme] at hs ⊢
    exact length_of_mem_segsOfLen hs
  · intro e he
    rcases List.mem_map.mp (mem_gcInsertAll he) with ⟨l, hl, hme⟩
    rw [← hme]
    exact hrec l hl

theorem merge_wf : ∀ (n : ℕ) (original : List (Seg T × Trie T))
    (group : List (Seg T)), mapDepth original ≤ n →
    (mergeChildrenByLengthGroup original group).Wf := by
  intro n
  induction n with
  | zero =>
    intro original group h
    rw [mergeChildrenByLengthGroup_eq]
    apply wf_parts
    intro l hl
    have hag := ne_nil_of_mem_segLens hl
    exact absurd (lt_of_lt_of_le (mapDepth_collect_lt hag) h)
      (Nat.not_lt_zero _)
  | succ n ih =>
    intro original group h
    rw [mergeChildrenByLengthGroup_eq]
    apply wf_parts
    intro l hl
    have hag := ne_nil_of_mem_segLens hl
    have hd := @mapDepth_collect_lt T _ original group hag
    exact ih _ _ (by omega)

/-- C9: in every tree returned by `from_trie`, the child keys of any
single node have pairwise distinct lengths (one merged child per
segment length), and every segment stored in a key's segment-set has
exactly that key's length. -/
theorem claim9_grouped_keys_invariant : ∀ t : Trie T, (fromTrie t).Wf := by
  intro t
  rw [fromTrie, transformNodeRecursive]
  split
  · exact LengthGroupedNode.Wf.mk (by simp) (by simp) (by simp)
  · exact wf_parts _ _ fun l hl => merge_wf (mapDepth t.children) _ _ le_rfl

/-- Segmented trie on which the merge stage drops a terminal node: two
length-1 sibling edges whose children both carry the grandchild segment
`[5]`, terminal under the first, non-terminal under the second.  During
the merge of the length-1 group the second child's `[5]` grandchild
overwrites the first one (trie.rs line 414), losing the terminal
subtree. -/
def collisionTree : Trie ℕ :=
  Trie.mk
    [([0], Trie.mk [([5], Trie.mk [] true)] false),
     ([1], Trie.mk [([5], Trie.mk [] false)] false)]
    false

theorem anyTerminalInGroup_iff {original : List (Seg T × Trie T)}
    {group : List (Seg T)} :
    anyTerminalInGroup original group = true ↔
      ∃ seg ∈ group, ∃ c, assocFind seg original = some c ∧
        c.isTerminal = true := by
  rw [anyTerminalInGroup, List.any_eq_true]
  constructor
  · rintro ⟨seg, hseg, h⟩
    match hf : assocFind seg original with
    | some c =>
      rw [hf] at h
      exact ⟨seg, hseg, c, hf, h⟩
    | none =>
      rw [hf] at h
      cases h
  · rintro ⟨seg, hseg, c, hf, hc⟩
    refine ⟨seg, hseg, ?_⟩
    rw [hf]
    exact hc

/-- C3 counterexample: the input `collisionTree` has one terminal node
(the `[5]` leaf under edge `[0]`), but its length-grouped image has
none: the duplicate-key overwrite in `merge_children_by_length_group`
(trie.rs line 414) keeps only the non-terminal `[5]` grandchild of the
later-iterated edge `[1]`, so both halves of the claim fail — the
merged node for the grandchild group is non-terminal although a
contributing segmented-trie node was terminal, and the
terminal-reachable count drops from 1 to 0. -/
theorem claim3_counterexample :
    Trie.terminalCount collisionTree = 1 ∧
    fromTrie collisionTree =
      LengthGroupedNode.mk
        [(⟨1, [[0], [1]]⟩,
          LengthGroupedNode.mk
            [(⟨1, [[5]]⟩, LengthGroupedNode.mk [] false)] false)]
        false ∧
    LengthGroupedNode.terminalCount (fromTrie collisionTree) = 0 := by
  have heval : fromTrie collisionTree =
      LengthGroupedNode.mk
        [(⟨1, [[0], [1]]⟩,
          LengthGroupedNode.mk
            [(⟨1, [[5]]⟩, LengthGroupedNode.mk [] false)] false)]
        false := by
    rw [fromTrie, transformNodeRecursive]
    rw [if_neg (by decide)]
    rw [show segLens collisionTree.children = [1] from rfl]
    simp only [List.map]
    rw [show segsOfLen collisionTree.children 1 = [[0], [1]] from rfl]
    rw [mergeChildrenByLengthGroup_eq]
    rw [show collectGrandchildren collisionTree.children [[0], [1]] =
      [([5], Trie.mk [] false)] from rfl]
    rw [show segLens [([(5 : ℕ)], Trie.mk [] false)] = [1] from rfl]
    simp only [List.map]
    rw [show segsOfLen [([(5 : ℕ)], Trie.mk [] false)] 1 = [[5]] from rfl]
    rw [mergeChildrenByLengthGroup_eq]
    rw [show collectGrandchildren [([(5 : ℕ)], Trie.mk [] false)] [[5]] = []
      from rfl]
    rw [show segLens ([] : List (Seg ℕ × Trie ℕ)) = [] from rfl]
    simp only [List.map_nil]
    rfl
  refine ⟨?_, heval, ?_⟩
  · simp [collisionTree, Trie.terminalCount]
  · rw [heval]
    simp [LengthGroupedNode.terminalCount]

/-- C3 amended: what does hold is the top-level OR — every merged child
of `from_trie t` carries the terminal flag true iff some segmented-trie
child of `t` whose segment lies in the merged key's segment-set is
terminal.  (At deeper levels the OR ranges only over the
overwrite-collapsed grandchild map, and the terminal-count inequality
fails in general, per the counterexample.) -/
theorem claim3_merged_terminal_or {t : Trie T} {key : LengthGroupKey T}
    {c : LengthGroupedNode T} (h : (key, c) ∈ (fromTrie t).children) :
    c.isTerminal = true ↔
      ∃ seg ∈ key.segments, ∃ ct, assocFind seg t.children = some ct ∧
        ct.isTerminal = true := by
  rw [fromTrie, transformNodeRecursive] at h
  split at h
  · simp [LengthGroupedNode.children] at h
  · simp only [LengthGroupedNode.children] at h
    rcases List.mem_map.mp (mem_gcInsertAll h) with ⟨l, hl, hme⟩
    rw [Prod.mk.injEq] at hme
    obtain ⟨hk, hc⟩ := hme
    subst hk
    rw [← hc, mergeChildrenByLengthGroup_eq]
    simp only [LengthGroupedNode.isTerminal]
    exact anyTerminalInGroup_iff

/-- Witness for the amended C3 theorem at a concrete tree with one
terminal child. -/
theorem claim3_merged_terminal_or_witness :
    (LengthGroupedNode.mk [] true : LengthGroupedNode ℕ).isTerminal =
        true ↔
      ∃ seg ∈ ([[0]] : List (Seg ℕ)), ∃ ct,
        assocFind seg
          (Trie.mk [([0], Trie.mk [] true)] false : Trie ℕ).children =
          some ct ∧ ct.isTerminal = true :=
  @claim3_merged_terminal_or ℕ _ (Trie.mk [([0], Trie.mk [] true)] false)
    ⟨1, [[0]]⟩ (.mk [] true) (by
      rw [show fromTrie (Trie.mk [([(0 : ℕ)], Trie.mk [] true)] false) =
          LengthGroupedNode.mk
            [(⟨1, [[0]]⟩, LengthGroupedNode.mk [] true)] false from by
        rw [fromTrie, transformNodeRecursive]
        rw [if_neg (by decide)]
        rw [show segLens (Trie.mk [([(0 : ℕ)], Trie.mk [] true)]
          false).children = [1] from rfl]
        simp only [List.map]
        rw [show segsOfLen (Trie.mk [([(0 : ℕ)], Trie.mk [] true)]
          false).children 1 = [[0]] from rfl]
        rw [mergeChildrenByLengthGroup_eq]
        rw [show collectGrandchildren (Trie.mk [([(0 : ℕ)],
          Trie.mk [] true)] false).children [[0]] = [] from rfl]
        rw [show segLens ([] : List (Seg ℕ × Trie ℕ)) = [] from rfl]
        simp only [List.map_nil]
        rfl]
      simp [LengthGroupedNode.children])

theorem assocFind_keyInsert {k k' : Seg T}
    {v : Trie T} : ∀ {m : List (Seg T × Trie T)},
    assocFind k (keyInsert k' v m) =
      if k' = k then some v else assocFind k m := by
  intro m
  induction m with
  | nil =>
    simp only [keyInsert, assocFind]
  | cons a l ih =>
    simp only [keyInsert]
    split
    · simp only [assocFind]
    · split
      · rename_i hlt heq
        simp only [assocFind]
        by_cases hk : k' = k
        · simp [hk]
        · rw [if_neg hk, if_neg hk, if_neg (by rw [← heq]; exact hk)]
      · rename_i hlt heq
        simp only [assocFind]
        by_cases ha : a.1 = k
        · rw [if_pos ha, if_neg (fun hc => heq (by rw [hc, ha])), if_pos ha]
        · rw [if_neg ha, if_neg ha, ih]

theorem assocFind_append {k : Seg T} :
    ∀ {l1 l2 : List (Seg T × Trie T)},
    assocFind k (l1 ++ l2) =
      match assocFind k l1 with
      | some v => some v
      | none => assocFind k l2 := by
  intro l1
  induction l1 with
  | nil => intro l2; simp [assocFind]
  | cons a l ih =>
    intro l2
    simp only [List.cons_append, assocFind]
    split
    · simp
    · exact ih

theorem findSomeRev_append {α β : Type} {f : α → Option β} :
    ∀ {l1 l2 : List α},
    List.findSome? f (l1 ++ l2) =
      match List.findSome? f l1 with
      | some v => some v
      | none => List.findSome? f l2 := by
  intro l1
  induction l1 with
  | nil => intro l2; simp [List.findSome?_nil]
  | cons a l ih =>
    intro l2
    simp only [List.cons_append, List.findSome?_cons]
    split
    · rfl
    · exact ih

theorem assocFind_foldl_keyInsert {k : Seg T} :
    ∀ {m acc : List (Seg T × Trie T)},
    assocFind k (m.foldl (fun a x => keyInsert x.1 x.2 a) acc) =
      match assocFind k m.reverse with
      | some v => some v
      | none => assocFind k acc := by
  intro m
  induction m with
  | nil => intro acc; simp [assocFind]
  | cons a l ih =>
    intro acc
    simp only [List.foldl_cons, List.reverse_cons]
    rw [ih, assocFind_append]
    rcases hf : assocFind k l.reverse with _ | v
    · simp only
      rw [assocFind_keyInsert]
      simp only [assocFind]
      by_cases ha : a.1 = k
      · rw [if_pos ha, if_pos ha]
      · rw [if_neg ha, if_neg ha]
    · simp only

theorem assocFind_collectGrandchildren {k : Seg T}
    {original : List (Seg T × Trie T)} :
    ∀ {group : List (Seg T)} {acc : List (Seg T × Trie T)},
    assocFind k (group.foldl
      (fun acc seg =>
        match assocFind seg original with
        | some c => c.children.foldl (fun a x => keyInsert x.1 x.2 a) acc
        | none => acc)
      acc) =
      match group.reverse.findSome? (fun seg =>
        (assocFind seg original).bind fun c =>
          assocFind k c.children.reverse) with
      | some v => some v
      | none => assocFind k acc := by
  intro group
  induction group with
  | nil => intro acc; simp [List.findSome?_nil]
  | cons g rest ih =>
    intro acc
    simp only [List.foldl_cons, List.reverse_cons]
    rw [ih, findSomeRev_append]
    rcases hr : rest.reverse.findSome? (fun seg =>
        (assocFind seg original).bind fun c =>
          assocFind k c.children.reverse) with _ | v
    · simp only
      rcases hg : assocFind g original with _ | c
      · simp [List.findSome?_cons, List.findSome?_nil, hg]
      · simp only [List.findSome?_cons, List.findSome?_nil, hg,
          Option.some_bind]
        rw [assocFind_foldl_keyInsert]
        rcases assocFind k c.children.reverse with _ | w <;> rfl
    · rfl

theorem sorted_setInsert {K : Type} [LinearOrder K] {k : K} :
    ∀ {l : List K}, l.Pairwise (· < ·) →
      (setInsert k l).Pairwise (· < ·) := by
  intro l
  induction l with
  | nil => intro _; simp [setInsert]
  | cons a t ih =>
    intro h
    rcases List.pairwise_cons.mp h with ⟨ha, ht⟩
    simp only [setInsert]
    split
    · rename_i hlt
      refine List.pairwise_cons.mpr ⟨?_, h⟩
      intro e he
      rcases List.mem_cons.mp he with he | he
      · subst he; exact hlt
      · exact lt_trans hlt (ha e he)
    · split
      · rename_i hlt heq
        subst heq
        exact h
      · rename_i hlt heq
        refine List.pairwise_cons.mpr ⟨?_, ih ht⟩
        intro e he
        rcases mem_setInsert.mp he with he | he
        · rw [he]
          rcases lt_trichotomy k a with hc | hc | hc
          · exact absurd hc hlt
          · exact absurd hc heq
          · exact hc
        · exact ha e he

theorem sorted_sortKeys {K : Type} [LinearOrder K] {l : List K} :
    (sortKeys l).Pairwise (· < ·) := by
  induction l with
  | nil => simp [sortKeys]
  | cons a t ih =>
    simp only [sortKeys, List.foldr_cons]
    exact sorted_setInsert ih

/-- C7: the transform is a function of its input (determinism), and the
grandchild union resolves key collisions by letting the latest segment
of the group win: a lookup in `all_grandchildren` is the first hit when
scanning the group in reverse (each child map itself read back-to-front,
matching `HashMap::insert` overwrite), and the groups handed to the
merge are strictly sorted, so "latest" is the largest colliding segment
in the `BTreeSet` order. -/
theorem claim7_deterministic_later_wins :
    (∀ t1 t2 : Trie T, t1 = t2 → fromTrie t1 = fromTrie t2) ∧
    (∀ (original : List (Seg T × Trie T)) (group : List (Seg T))
      (k : Seg T),
      assocFind k (collectGrandchildren original group) =
        group.reverse.findSome? fun seg =>
          (assocFind seg original).bind fun c =>
            assocFind k c.children.reverse) ∧
    (∀ (m : List (Seg T × Trie T)) (l : ℕ),
      (segsOfLen m l).Pairwise (· < ·)) := by
  refine ⟨fun t1 t2 h => by rw [h], ?_, ?_⟩
  · intro original group k
    rw [collectGrandchildren, assocFind_collectGrandchildren]
    rcases group.reverse.findSome? (fun seg =>
      (assocFind seg original).bind fun c =>
        assocFind k c.children.reverse) with _ | v
    · rfl
    · rfl
  · intro m l
    exact sorted_sortKeys

/-- Witness for the determinism half of C7 at a concrete tree. -/
theorem claim7_deterministic_later_wins_witness :
    fromTrie (Trie.mk [([0], Trie.mk [] true)] false : Trie ℕ) =
      fromTrie (Trie.mk [([0], Trie.mk [] true)] false) :=
  (claim7_deterministic_later_wins).1 _ _ rfl

/-- All sequences of the list carry one common element at index `i`. -/
def SharedAt (seqs : List (List T)) (i : ℕ) : Prop :=
  ∃ x, ∀ s ∈ seqs, s.get? i = some x

omit [LinearOrder T] in
theorem sharedAt_iff_of_mem_iff {seqs1 seqs2 : List (List T)}
    (h : ∀ s, s ∈ seqs1 ↔ s ∈ seqs2) {i : ℕ} :
    SharedAt seqs1 i ↔ SharedAt seqs2 i :=
  ⟨fun ⟨x, hx⟩ => ⟨x, fun s hs => hx s ((h s).mpr hs)⟩,
   fun ⟨x, hx⟩ => ⟨x, fun s hs => hx s ((h s).mp hs)⟩⟩

omit [LinearOrder T] in
theorem get?_some_lt {s : List T} {i : ℕ} {x : T}
    (h : s.get? i = some x) : i < s.length := by
  rw [List.get?_eq_getElem?] at h
  exact (List.getElem?_eq_some.mp h).1

omit [LinearOrder T] in
theorem get?_none_of_ge {s : List T} {i : ℕ} (h : s.length ≤ i) :
    s.get? i = none := by
  rw [List.get?_eq_getElem?]
  simp only [List.getElem?_eq_none_iff]
  omega

omit [LinearOrder T] in
theorem length_ge_of_shared {seqs : List (List T)} {p L : ℕ}
    (hL : ∀ j < L, SharedAt seqs (p + j)) (hpos : 1 ≤ L) {s : List T}
    (hs : s ∈ seqs) : p + L ≤ s.length := by
  obtain ⟨x, hx⟩ := hL (L - 1) (by omega)
  have := get?_some_lt (hx s hs)
  omega

omit [LinearOrder T] in
theorem slice_get? {s : List T} {p L j : ℕ} (hj : j < L) :
    ((s.drop p).take L).get? j = s.get? (p + j) := by
  rw [List.get?_eq_getElem?, List.get?_eq_getElem?, List.getElem?_take,
    if_pos hj, List.getElem?_drop]

omit [LinearOrder T] in
theorem slice_eq_of_shared {seqs : List (List T)} {p L : ℕ}
    (hL : ∀ j < L, SharedAt seqs (p + j)) {s1 s2 : List T}
    (h1 : s1 ∈ seqs) (h2 : s2 ∈ seqs) :
    (s1.drop p).take L = (s2.drop p).take L := by
  apply List.ext_getElem?
  intro j
  rw [← List.get?_eq_getElem?, ← List.get?_eq_getElem?]
  by_cases hj : j < L
  · obtain ⟨x, hx⟩ := hL j hj
    rw [slice_get? hj, slice_get? hj, hx s1 h1, hx s2 h2]
  · have e1 : ((s1.drop p).take L).length ≤ j := by
      simp only [List.length_take, List.length_drop]
      omega
    have e2 : ((s2.drop p).take L).length ≤ j := by
      simp only [List.length_take, List.length_drop]
      omega
    rw [get?_none_of_ge e1, get?_none_of_ge e2]

theorem lcpAux_spec {seqs : List (List T)} {first : List T}
    (hmem : first ∈ seqs) :
    ∀ (fuel i : ℕ), first.length ≤ i + fuel →
      (∀ j < lcpAux seqs first i fuel, SharedAt seqs (i + j)) ∧
        ¬ SharedAt seqs (i + lcpAux seqs first i fuel) := by
  intro fuel
  induction fuel with
  | zero =>
    intro i hfuel
    refine ⟨fun j hj => absurd hj (by simp [lcpAux]), ?_⟩
    rintro ⟨x, hx⟩
    have hx1 := hx first hmem
    rw [get?_none_of_ge (by omega)] at hx1
    cases hx1
  | succ fuel ih =>
    intro i hfuel
    simp only [lcpAux]
    match hf : first.get? i with
    | none =>
      dsimp only
      refine ⟨fun j hj => absurd hj (by simp), ?_⟩
      rintro ⟨x, hx⟩
      simp only [Nat.add_zero] at hx
      rw [hx first hmem] at hf
      cases hf
    | some x =>
      dsimp only
      by_cases hall : (seqs.all fun s => decide (s.get? i = some x)) = true
      · rw [if_pos hall]
        obtain ⟨ih1, ih2⟩ := ih (i + 1) (by omega)
        constructor
        · intro j hj
          match j with
          | 0 =>
            exact ⟨x, fun s hs =>
              of_decide_eq_true (List.all_eq_true.mp hall s hs)⟩
          | j + 1 =>
            have : i + (j + 1) = i + 1 + j := by omega
            rw [this]
            exact ih1 j (by omega)
        · have : i + (lcpAux seqs first (i + 1) fuel + 1) =
            i + 1 + lcpAux seqs first (i + 1) fuel := by omega
          rw [this]
          exact ih2
      · rw [if_neg hall]
        refine ⟨fun j hj => absurd hj (by simp), ?_⟩
        rintro ⟨y, hy⟩
        simp only [Nat.add_zero] at hy
        have hxy : y = x := by
          have := hy first hmem
          rw [hf] at this
          exact (Option.some_inj.mp this).symm
        subst hxy
        exact hall (List.all_eq_true.mpr fun s hs =>
          decide_eq_true (hy s hs))

theorem findLongestCommonPref_spec {seqs : List (List T)} {p : ℕ}
    (h2 : 2 ≤ seqs.length) :
    (∀ j < findLongestCommonPref seqs p, SharedAt seqs (p + j)) ∧
      ¬ SharedAt seqs (p + findLongestCommonPref seqs p) := by
  match seqs, h2 with
  | first :: rest, h2 =>
    have heq : findLongestCommonPref (first :: rest) p =
        lcpAux (first :: rest) first p (first.length - p) := by
      rw [findLongestCommonPref.eq_def, if_neg (by omega)]
    rw [heq]
    exact lcpAux_spec (by simp) _ _ (by omega)

omit [LinearOrder T] in
theorem consec_unique {seqs : List (List T)} {p c1 c2 : ℕ}
    (h1 : (∀ j < c1, SharedAt seqs (p + j)) ∧ ¬ SharedAt seqs (p + c1))
    (h2 : (∀ j < c2, SharedAt seqs (p + j)) ∧ ¬ SharedAt seqs (p + c2)) :
    c1 = c2 := by
  by_contra hne
  rcases Nat.lt_or_ge c1 c2 with h | h
  · exact h1.2 (h2.1 c1 h)
  · exact h2.2 (h1.1 c2 (by omega))

theorem lcp_eq_of_mem_iff {seqs1 seqs2 : List (List T)}
    (h : ∀ s, s ∈ seqs1 ↔ s ∈ seqs2) (h1 : 2 ≤ seqs1.length)
    (h2 : 2 ≤ seqs2.length) {p : ℕ} :
    findLongestCommonPref seqs1 p = findLongestCommonPref seqs2 p := by
  have s1 := @findLongestCommonPref_spec T _ seqs1 p h1
  have s2 := @findLongestCommonPref_spec T _ seqs2 p h2
  exact consec_unique s1
    ⟨fun j hj => (sharedAt_iff_of_mem_iff h).mpr (s2.1 j hj),
     fun hc => s2.2 ((sharedAt_iff_of_mem_iff h).mp hc)⟩

/-- Reference-free sharing property: all members agree pairwise on the
`m`-token window at `p` and are long enough. -/
def SharePropSet (seqs : List (List T)) (p m : ℕ) : Prop :=
  ∀ s ∈ seqs, p + m ≤ s.length ∧
    ∀ s' ∈ seqs, ∀ j < m, s.get? (p + j) = s'.get? (p + j)

omit [LinearOrder T] in
theorem slice_eq_of_pointwise {s1 s2 : List T} {p L : ℕ}
    (h1 : p + L ≤ s1.length) (h2 : p + L ≤ s2.length)
    (hp : ∀ j < L, s1.get? (p + j) = s2.get? (p + j)) :
    (s1.drop p).take L = (s2.drop p).take L := by
  apply List.ext_getElem?
  intro j
  rw [← List.get?_eq_getElem?, ← List.get?_eq_getElem?]
  by_cases hj : j < L
  · rw [slice_get? hj, slice_get? hj, hp j hj]
  · have e1 : ((s1.drop p).take L).length ≤ j := by
      simp only [List.length_take, List.length_drop]
      omega
    have e2 : ((s2.drop p).take L).length ≤ j := by
      simp only [List.length_take, List.length_drop]
      omega
    rw [get?_none_of_ge e1, get?_none_of_ge e2]

theorem allShareSeg_iff {seqs : List (List T)} {first : List T} {p m : ℕ}
    (hmem : first ∈ seqs) :
    allShareSeg seqs first p m = true ↔
      ∀ s ∈ seqs, p + m ≤ s.length ∧
        ∀ j < m, s.get? (p + j) = first.get? (p + j) := by
  rw [allShareSeg, List.all_eq_true]
  constructor
  · intro h s hs
    have hsb := h s hs
    rw [Bool.and_eq_true, decide_eq_true_eq, decide_eq_true_eq] at hsb
    refine ⟨hsb.1, fun j hj => ?_⟩
    have := congrArg (fun l => l.get? j) hsb.2
    simpa only [slice_get? hj] using this
  · intro h s hs
    have hfirst := h first hmem
    have hs' := h s hs
    rw [Bool.and_eq_true, decide_eq_true_eq, decide_eq_true_eq]
    exact ⟨hs'.1, slice_eq_of_pointwise hs'.1 hfirst.1 hs'.2⟩

theorem stillSharedAt_iff {seqs : List (List T)} {first : List T}
    {p len : ℕ} :
    stillSharedAt seqs first p len = true ↔
      ∀ s ∈ seqs, p + len + 1 ≤ s.length ∧
        s.get? (p + len) = first.get? (p + len) := by
  rw [stillSharedAt, List.all_eq_true]
  constructor
  · intro h s hs
    have hsb := h s hs
    rw [Bool.and_eq_true, decide_eq_true_eq, decide_eq_true_eq] at hsb
    exact hsb
  · intro h s hs
    rw [Bool.and_eq_true, decide_eq_true_eq, decide_eq_true_eq]
    exact h s hs

theorem allShareSeg_succ_iff {seqs : List (List T)} {first : List T}
    {p len : ℕ} (hmem : first ∈ seqs)
    (h : allShareSeg seqs first p len = true) :
    (allShareSeg seqs first p (len + 1) = true ↔
      stillSharedAt seqs first p len = true) := by
  rw [allShareSeg_iff hmem, stillSharedAt_iff]
  rw [allShareSeg_iff hmem] at h
  constructor
  · intro hsucc s hs
    obtain ⟨hl, hp⟩ := hsucc s hs
    exact ⟨by omega, hp len (by omega)⟩
  · intro hstill s hs
    obtain ⟨hl, hp⟩ := hstill s hs
    refine ⟨by omega, fun j hj => ?_⟩
    by_cases hjl : j < len
    · exact (h s hs).2 j hjl
    · have : j = len := by omega
      rw [this]
      exact hp

theorem optLoop_gt {seqs : List (List T)} {first : List T} {p N : ℕ} :
    ∀ {fuel len acc : ℕ}, N < len →
      optLoop seqs first p N fuel len acc = acc := by
  intro fuel
  induction fuel with
  | zero => intro len acc _; rfl
  | succ fuel ih =>
    intro len acc h
    rw [optLoop, if_pos h]

theorem optLoop_spec {seqs : List (List T)} {first : List T} {p N : ℕ}
    (hmem : first ∈ seqs) :
    ∀ (fuel len acc : ℕ), len + fuel = N + 1 → 1 ≤ len → len ≤ N →
      allShareSeg seqs first p len = true →
      len ≤ optLoop seqs first p N fuel len acc ∧
      optLoop seqs first p N fuel len acc ≤ N ∧
      allShareSeg seqs first p (optLoop seqs first p N fuel len acc) =
        true ∧
      (optLoop seqs first p N fuel len acc = N ∨
        allShareSeg seqs first p
          (optLoop seqs first p N fuel len acc + 1) = false) := by
  intro fuel
  induction fuel with
  | zero => intro len acc hfuel h1 hN _; omega
  | succ fuel ih =>
    intro len acc hfuel h1 hN hshare
    rw [optLoop, if_neg (by omega), if_pos hshare]
    by_cases hbreak : (len < N && !stillSharedAt seqs first p len) = true
    · rw [if_pos hbreak]
      rw [Bool.and_eq_true, Bool.not_eq_true'] at hbreak
      refine ⟨le_rfl, hN, hshare, Or.inr ?_⟩
      rw [← Bool.not_eq_true]
      intro hsucc
      rw [allShareSeg_succ_iff hmem hshare] at hsucc
      rw [hsucc] at hbreak
      cases hbreak.2
    · rw [if_neg hbreak]
      by_cases hlen : len = N
      · subst hlen
        rw [optLoop_gt (by omega)]
        exact ⟨by omega, le_rfl, hshare, Or.inl rfl⟩
      · have hlt : len < N := by omega
        have hstill : stillSharedAt seqs first p len = true := by
          by_contra hs
          rw [Bool.not_eq_true] at hs
          exact hbreak (by rw [hs, decide_eq_true hlt]; rfl)
        have hsucc : allShareSeg seqs first p (len + 1) = true :=
          (allShareSeg_succ_iff hmem hshare).mpr hstill
        obtain ⟨r1, r2, r3, r4⟩ := ih (len + 1) len (by omega) (by omega)
          (by omega) hsucc
        exact ⟨by omega, r2, r3, r4⟩

theorem findOptimalSegment_spec {first : List T} {rest : List (List T)}
    {p : ℕ} (hp : p < first.length)
    (hall1 : allShareSeg (first :: rest) first p 1 = true) :
    ∃ M, findOptimalSegment (first :: rest) p = (first.drop p).take M ∧
      1 ≤ M ∧ M ≤ first.length - p ∧
      allShareSeg (first :: rest) first p M = true ∧
      (M = first.length - p ∨
        allShareSeg (first :: rest) first p (M + 1) = false) := by
  have hspec := @optLoop_spec T _ (first :: rest) first p
    (first.length - p) (by simp)
    (first.length - p) 1 1 (by omega) le_rfl (by omega) hall1
  exact ⟨_, rfl, hspec.1, hspec.2.1, hspec.2.2.1, hspec.2.2.2⟩

theorem allShareSeg_iff_set {seqs : List (List T)} {first : List T}
    {p m : ℕ} (hmem : first ∈ seqs) :
    allShareSeg seqs first p m = true ↔ SharePropSet seqs p m := by
  rw [allShareSeg_iff hmem]
  constructor
  · intro h s hs
    refine ⟨(h s hs).1, fun s' hs' j hj => ?_⟩
    rw [(h s hs).2 j hj, (h s' hs').2 j hj]
  · intro h s hs
    exact ⟨(h s hs).1, fun j hj => (h s hs).2 first hmem j hj⟩

omit [LinearOrder T] in
theorem sharePropSet_le {seqs : List (List T)} {p m m' : ℕ}
    (hle : m ≤ m') (h : SharePropSet seqs p m') : SharePropSet seqs p m :=
  fun s hs =>
    ⟨by have := (h s hs).1; omega,
     fun s' hs' j hj => (h s hs).2 s' hs' j (by omega)⟩

omit [LinearOrder T] in
theorem sharePropSet_iff_of_mem_iff {g1 g2 : List (List T)} {p m : ℕ}
    (h : ∀ s, s ∈ g1 ↔ s ∈ g2) :
    SharePropSet g1 p m ↔ SharePropSet g2 p m := by
  constructor
  · intro hs s hmem
    refine ⟨(hs s ((h s).mpr hmem)).1, fun s' hs' j hj =>
      (hs s ((h s).mpr hmem)).2 s' ((h s').mpr hs') j hj⟩
  · intro hs s hmem
    refine ⟨(hs s ((h s).mp hmem)).1, fun s' hs' j hj =>
      (hs s ((h s).mp hmem)).2 s' ((h s').mp hs') j hj⟩

theorem findOptimalSegment_eq_of_mem_iff {g1 g2 : List (List T)} {p : ℕ}
    (h : ∀ s, s ∈ g1 ↔ s ∈ g2) (hne1 : g1 ≠ []) (hne2 : g2 ≠ [])
    (hv : ∀ s ∈ g1, p < s.length)
    (htok : ∀ s ∈ g1, ∀ s' ∈ g1, s.get? p = s'.get? p) :
    findOptimalSegment g1 p = findOptimalSegment g2 p := by
  match g1, g2, hne1, hne2 with
  | f1 :: r1, f2 :: r2, _, _ =>
    have hm1 : f1 ∈ f1 :: r1 := by simp
    have hm2 : f2 ∈ f2 :: r2 := by simp
    have hm2g1 : f2 ∈ f1 :: r1 := (h f2).mpr hm2
    have hv2 : ∀ s ∈ f2 :: r2, p < s.length := fun s hs =>
      hv s ((h s).mpr hs)
    have htok2 : ∀ s ∈ f2 :: r2, ∀ s' ∈ f2 :: r2, s.get? p = s'.get? p :=
      fun s hs s' hs' => htok s ((h s).mpr hs) s' ((h s').mpr hs')
    have hall1 : allShareSeg (f1 :: r1) f1 p 1 = true :=
      (allShareSeg_iff hm1).mpr fun s hs =>
        ⟨by have := hv s hs; omega, fun j hj => by
          match j, hj with
          | 0, _ =>
            simp only [Nat.add_zero]
            exact htok s hs f1 hm1⟩
    have hall2 : allShareSeg (f2 :: r2) f2 p 1 = true :=
      (allShareSeg_iff hm2).mpr fun s hs =>
        ⟨by have := hv2 s hs; omega, fun j hj => by
          match j, hj with
          | 0, _ =>
            simp only [Nat.add_zero]
            exact htok2 s hs f2 hm2⟩
    obtain ⟨M1, e1, h11, h12, h13, h14⟩ :=
      findOptimalSegment_spec (hv f1 hm1) hall1
    obtain ⟨M2, e2, h21, h22, h23, h24⟩ :=
      findOptimalSegment_spec (hv2 f2 hm2) hall2
    have hMeq : M1 = M2 := by
      by_contra hne
      rcases Nat.lt_or_ge M1 M2 with hlt | hge
      · have hset2 : SharePropSet (f2 :: r2) p M2 :=
          (allShareSeg_iff_set hm2).mp h23
        have hset1 : SharePropSet (f1 :: r1) p (M1 + 1) :=
          sharePropSet_le (by omega)
            ((sharePropSet_iff_of_mem_iff h).mpr hset2)
        have ha1 : allShareSeg (f1 :: r1) f1 p (M1 + 1) = true :=
          (allShareSeg_iff_set hm1).mpr hset1
        rcases h14 with hN | hfalse
        · have := ((allShareSeg_iff hm1).mp ha1 f1 hm1).1
          omega
        · rw [hfalse] at ha1
          cases ha1
      · have hlt : M2 < M1 := by omega
        have hset1 : SharePropSet (f1 :: r1) p M1 :=
          (allShareSeg_iff_set hm1).mp h13
        have hset2 : SharePropSet (f2 :: r2) p (M2 + 1) :=
          sharePropSet_le (by omega)
            ((sharePropSet_iff_of_mem_iff h).mp hset1)
        have ha2 : allShareSeg (f2 :: r2) f2 p (M2 + 1) = true :=
          (allShareSeg_iff_set hm2).mpr hset2
        rcases h24 with hN | hfalse
        · have := ((allShareSeg_iff hm2).mp ha2 f2 hm2).1
          omega
        · rw [hfalse] at ha2
          cases ha2
    rw [e1, e2, ← hMeq]
    have hset1 : SharePropSet (f1 :: r1) p M1 :=
      (allShareSeg_iff_set hm1).mp h13
    exact slice_eq_of_pointwise (hset1 f1 hm1).1 (hset1 f2 hm2g1).1
      ((hset1 f1 hm1).2 f2 hm2g1)

theorem findOptimalSegment_all_eq {g : List (List T)} {s : List T}
    {p : ℕ} (hne : g ≠ []) (hall : ∀ x ∈ g, x = s) (hp : p < s.length) :
    findOptimalSegment g p = s.drop p := by
  match g, hne with
  | f :: r, _ =>
    have hf : f = s := hall f (by simp)
    subst hf
    have hall1 : allShareSeg (f :: r) f p 1 = true :=
      (allShareSeg_iff (by simp)).mpr fun x hx => by
        rw [hall x hx]
        exact ⟨by omega, fun j hj => rfl⟩
    obtain ⟨M, e, h1, h2, h3, h4⟩ := findOptimalSegment_spec hp hall1
    have hM : M = f.length - p := by
      rcases h4 with h | hfalse
      · exact h
      · by_contra hne'
        have : allShareSeg (f :: r) f p (M + 1) = true :=
          (allShareSeg_iff (by simp)).mpr fun x hx => by
            rw [hall x hx]
            exact ⟨by omega, fun j hj => rfl⟩
        rw [this] at hfalse
        cases hfalse
    rw [e, hM]
    have hlen : (f.drop p).length = f.length - p := List.length_drop p f
    rw [← hlen]
    exact List.take_length _

theorem findOptimalSegment_head {first : List T} {rest : List (List T)}
    {p : ℕ} {t : T} (hp : first.get? p = some t)
    (hall1 : allShareSeg (first :: rest) first p 1 = true) :
    ∃ k, findOptimalSegment (first :: rest) p = t :: k := by
  have hlt : p < first.length := get?_some_lt hp
  obtain ⟨M, e, h1, -, -, -⟩ := findOptimalSegment_spec hlt hall1
  have hdrop : first.drop p = t :: first.drop (p + 1) := by
    rw [List.drop_eq_getElem_cons hlt]
    rw [List.get?_eq_getElem?] at hp
    obtain ⟨hb, hval⟩ := List.getElem?_eq_some.mp hp
    rw [hval]
  rw [e, hdrop]
  match M, h1 with
  | M + 1, _ => exact ⟨_, rfl⟩

omit [LinearOrder T] in
theorem slice_length {s : List T} {p k : ℕ} (h : p + k ≤ s.length) :
    ((s.drop p).take k).length = k := by
  simp only [List.length_take, List.length_drop]
  omega

theorem dedup_all_eq {α : Type} [DecidableEq α] {x : α} :
    ∀ {l : List α}, l ≠ [] → (∀ a ∈ l, a = x) → l.dedup = [x] := by
  intro l
  induction l with
  | nil => intro h; exact absurd rfl h
  | cons a t ih =>
    intro _ hall
    have ha : a = x := hall a (by simp)
    match t, ih with
    | [], _ =>
      rw [ha]
      rfl
    | b :: t', ih =>
      have hbx : b = x := hall b (by simp)
      have hmem : a ∈ b :: t' := by
        rw [ha, hbx]
        simp
      rw [List.dedup_cons_of_mem hmem]
      exact ih (by simp) fun y hy => hall y (List.mem_cons_of_mem _ hy)

omit [LinearOrder T] in
theorem headD_mem {l : List (List T)} (h : l ≠ []) : l.headD [] ∈ l := by
  match l, h with
  | a :: t, _ => simp

theorem withSeg_filter_eq {seqs : List (List T)} {p L k : ℕ}
    {s0 : List T} (hs0 : s0 ∈ seqs)
    (hSh : ∀ j < L, SharedAt seqs (p + j)) (hk1 : 1 ≤ k) (hkL : k ≤ L) :
    seqs.filter (fun s =>
      decide (p + ((s0.drop p).take k).length ≤ s.length) &&
      decide ((s.drop p).take ((s0.drop p).take k).length =
        (s0.drop p).take k)) = seqs := by
  have hlen0 : p + k ≤ s0.length :=
    length_ge_of_shared (fun j hj => hSh j (by omega)) hk1 hs0
  have hsl : ((s0.drop p).take k).length = k := slice_length hlen0
  apply List.filter_eq_self.mpr
  intro s hs
  rw [Bool.and_eq_true, decide_eq_true_eq, decide_eq_true_eq, hsl]
  refine ⟨length_ge_of_shared (fun j hj => hSh j (by omega)) hk1 hs, ?_⟩
  exact slice_eq_of_shared (fun j hj => hSh j (by omega)) hs hs0

theorem isGood_of_lt {seqs : List (List T)} {p L k : ℕ} {s0 : List T}
    (hs0 : s0 ∈ seqs) (h2 : 2 ≤ seqs.length)
    (hSh : ∀ j < L, SharedAt seqs (p + j)) (hk1 : 1 ≤ k) (hkL : k < L) :
    isGoodSegmentBreakpoint ((s0.drop p).take k) seqs p = false := by
  rw [isGoodSegmentBreakpoint]
  simp only [withSeg_filter_eq hs0 hSh hk1 (by omega)]
  rw [if_neg (by omega)]
  have hlen0 : p + k ≤ s0.length :=
    length_ge_of_shared (fun j hj => hSh j (by omega)) hk1 hs0
  have hsl : ((s0.drop p).take k).length = k := slice_length hlen0
  rw [hsl]
  obtain ⟨x, hx⟩ := hSh k hkL
  have hmap : (seqs.map fun s => s.get? (p + k)).dedup = [some x] := by
    apply dedup_all_eq
    · intro hc
      rw [List.map_eq_nil] at hc
      subst hc
      simp at h2
    · intro a ha
      obtain ⟨s, hs, hsa⟩ := List.mem_map.mp ha
      rw [← hsa, hx s hs]
  rw [hmap]
  simp

theorem isGood_at_L {seqs : List (List T)} {p L : ℕ} {s0 : List T}
    (hs0 : s0 ∈ seqs) (h2 : 2 ≤ seqs.length) (hL1 : 1 ≤ L)
    (hSh : ∀ j < L, SharedAt seqs (p + j))
    (hdiv : ((seqs.map fun s => s.get? (p + L)).dedup).length ≠ 1) :
    isGoodSegmentBreakpoint ((s0.drop p).take L) seqs p = true := by
  rw [isGoodSegmentBreakpoint]
  simp only [withSeg_filter_eq hs0 hSh hL1 le_rfl]
  rw [if_neg (by omega)]
  have hlen0 : p + L ≤ s0.length := length_ge_of_shared hSh hL1 hs0
  have hsl : ((s0.drop p).take L).length = L := slice_length hlen0
  rw [hsl]
  have hne : (seqs.map fun s => s.get? (p + L)).dedup ≠ [] := by
    intro hc
    have : (seqs.map fun s => s.get? (p + L)) ≠ [] := by
      intro hc2
      rw [List.map_eq_nil] at hc2
      subst hc2
      simp at h2
    obtain ⟨a, ha⟩ := List.exists_mem_of_ne_nil _ this
    rw [← List.mem_dedup, hc] at ha
    cases ha
  have hge : 1 ≤ ((seqs.map fun s => s.get? (p + L)).dedup).length :=
    List.length_pos.mpr hne
  rw [decide_eq_true_eq]
  omega

theorem divLoop_eq_of_good {target : List T} {all : List (List T)}
    {p N L : ℕ} (hL1 : 1 ≤ L) (hLN : L ≤ N)
    (hbad : ∀ k, 1 ≤ k → k < L →
      isGoodSegmentBreakpoint ((target.drop p).take k) all p = false)
    (hgood : isGoodSegmentBreakpoint ((target.drop p).take L) all p =
      true) :
    ∀ (fuel len : ℕ), len + fuel = N + 1 → 1 ≤ len → len ≤ L →
      divLoop target all p N fuel len = L := by
  intro fuel
  induction fuel with
  | zero => intro len hfuel h1 hlen; omega
  | succ fuel ih =>
    intro len hfuel h1 hlen
    rw [divLoop]
    by_cases hl : len = L
    · subst hl
      rw [if_pos hgood]
    · rw [if_neg (by rw [hbad len h1 (by omega)]; simp),
        if_neg (by omega)]
      exact ih (len + 1) (by omega) (by omega) (by omega)

theorem findSegmentUntilDivergence_eq_slice {seqs : List (List T)}
    {p L : ℕ} {s : List T} (hs : s ∈ seqs) (h2 : 2 ≤ seqs.length)
    (hv : ∀ x ∈ seqs, p < x.length) (hL1 : 1 ≤ L)
    (hSh : ∀ j < L, SharedAt seqs (p + j))
    (hdiv : ((seqs.map fun x => x.get? (p + L)).dedup).length ≠ 1) :
    findSegmentUntilDivergence s seqs p = (s.drop p).take L := by
  rw [findSegmentUntilDivergence, if_neg (by have := hv s hs; omega)]
  congr 1
  apply divLoop_eq_of_good hL1
    (by have := length_ge_of_shared hSh hL1 hs; omega)
    (fun k hk1 hkL => isGood_of_lt hs h2 hSh hk1 hkL)
    (isGood_at_L hs h2 hL1 hSh hdiv)
  · omega
  · omega
  · have := length_ge_of_shared hSh hL1 hs
    omega

theorem buildDivergent_eq_single {seqs : List (List T)} {p L : ℕ}
    {hv : ∀ s ∈ seqs, p < s.length} (h2 : 2 ≤ seqs.length) (hL1 : 1 ≤ L)
    (hSh : ∀ j < L, SharedAt seqs (p + j))
    (hdiv : ((seqs.map fun x => x.get? (p + L)).dedup).length ≠ 1) :
    buildDivergentSegments seqs p hv =
      [(((seqs.headD []).drop p).take L,
        buildSegmentedTrie seqs (p + L))] := by
  have hne : seqs ≠ [] := by
    intro hc
    subst hc
    simp at h2
  have hhead := headD_mem hne
  have hcp : ∀ s ∈ seqs, findSegmentUntilDivergence s seqs p =
      ((seqs.headD []).drop p).take L := by
    intro s hs
    rw [findSegmentUntilDivergence_eq_slice hs h2 hv hL1 hSh hdiv]
    exact slice_eq_of_shared hSh hs hhead
  rw [buildDivergentSegments_eq]
  have hdedup : (seqs.map fun s =>
      findSegmentUntilDivergence s seqs p).dedup =
      [((seqs.headD []).drop p).take L] := by
    apply dedup_all_eq
    · intro hc
      rw [List.map_eq_nil] at hc
      exact hne hc
    · intro a ha
      obtain ⟨s, hs, hsa⟩ := List.mem_map.mp ha
      rw [← hsa, hcp s hs]
  rw [hdedup]
  simp only [List.map]
  have hfilter : (seqs.filter fun s =>
      decide (findSegmentUntilDivergence s seqs p =
        ((seqs.headD []).drop p).take L)) = seqs :=
    List.filter_eq_self.mpr fun s hs => decide_eq_true (hcp s hs)
  rw [hfilter]
  have hlen : (((seqs.headD []).drop p).take L).length = L :=
    slice_length (length_ge_of_shared hSh hL1 hhead)
  rw [hlen]
  rfl

theorem two_le_of_lcp_pos {seqs : List (List T)} {p : ℕ}
    (h : 0 < findLongestCommonPref seqs p) : 2 ≤ seqs.length := by
  by_contra hc
  rw [findLongestCommonPref.eq_def, if_pos (by omega)] at h
  omega

/-- Normal form of the builder in the positive-common-prefix case: one
edge labelled with the common prefix, then the recursive build past it
(this covers both the single-continuation branch and the divergent
fallback, which provably emits the same single edge). -/
theorem build_eq_single {seqs : List (List T)} {p : ℕ}
    (hv : (seqs.filter fun s => decide (p < s.length)) ≠ [])
    (hpos : 0 < findLongestCommonPref
      (seqs.filter fun s => decide (p < s.length)) p) :
    buildSegmentedTrie seqs p =
      Trie.mk
        [((((seqs.filter fun s => decide (p < s.length)).headD []).drop
            p).take
            (findLongestCommonPref
              (seqs.filter fun s => decide (p < s.length)) p),
          buildSegmentedTrie (seqs.filter fun s => decide (p < s.length))
            (p + findLongestCommonPref
              (seqs.filter fun s => decide (p < s.length)) p))]
        (seqs.any fun s => decide (s.length = p)) := by
  rw [buildSegmentedTrie_eq_pos hv hpos]
  congr 1
  have h2 := two_le_of_lcp_pos hpos
  have hspec := @findLongestCommonPref_spec T _
    (seqs.filter fun s => decide (p < s.length)) p h2
  by_cases hn : (((seqs.filter fun s => decide (p < s.length)).map
      fun s => s.get? (p + findLongestCommonPref
        (seqs.filter fun s => decide (p < s.length)) p)).dedup).length = 1
  · rw [buildWithCommonPref_eq_single hn]
  · rw [buildWithCommonPref_eq_div hn]
    exact buildDivergent_eq_single h2 (by omega) hspec.1 hn

theorem mem_insertAll {K V : Type} [LinearOrder K] :
    ∀ {entries : List (K × V)} {e : K × V},
      e ∈ insertAll entries → e ∈ entries := by
  intro entries
  induction entries with
  | nil => intro e h; exact absurd h (by simp [insertAll])
  | cons a l ih =>
    intro e h
    simp only [insertAll, List.foldr_cons] at h
    rcases mem_keyInsert h with h | h
    · simp [h]
    · exact List.mem_cons_of_mem _ (ih h)

theorem sorted_keyInsert {K V : Type} [LinearOrder K] {k : K} {v : V} :
    ∀ {m : List (K × V)}, m.Pairwise (fun a b => a.1 < b.1) →
      (keyInsert k v m).Pairwise (fun a b => a.1 < b.1) := by
  intro m
  induction m with
  | nil => intro _; simp [keyInsert]
  | cons a l ih =>
    intro h
    rcases List.pairwise_cons.mp h with ⟨ha, hl⟩
    simp only [keyInsert]
    split
    · rename_i hlt
      refine List.pairwise_cons.mpr ⟨?_, h⟩
      intro e he
      rcases List.mem_cons.mp he with he | he
      · subst he; exact hlt
      · exact lt_trans hlt (ha e he)
    · split
      · rename_i hlt heq
        refine List.pairwise_cons.mpr ⟨?_, hl⟩
        intro e he
        show k < e.1
        rw [heq]
        exact ha e he
      · rename_i hlt heq
        refine List.pairwise_cons.mpr ⟨?_, ih hl⟩
        intro e he
        rcases mem_keyInsert he with he | he
        · subst he
          show a.1 < k
          rcases lt_trichotomy k a.1 with hc | hc | hc
          · exact absurd hc hlt
          · exact absurd hc heq
          · exact hc
        · exact ha e he

theorem sorted_insertAll {K V : Type} [LinearOrder K]
    {entries : List (K × V)} :
    (insertAll entries).Pairwise (fun a b => a.1 < b.1) := by
  induction entries with
  | nil => simp [insertAll]
  | cons a l ih =>
    simp only [insertAll, List.foldr_cons]
    exact sorted_keyInsert ih

/-- Well-formedness of a segmented trie: at every node the sibling edge
labels are non-empty, pairwise distinct, and none is a token-wise
prefix of another. -/
inductive Trie.Wf : Trie T → Prop where
  | mk : ∀ {cs : List (Seg T × Trie T)} {b : Bool},
      (∀ e ∈ cs, e.1 ≠ []) →
      cs.Pairwise (fun e1 e2 =>
        e1.1 ≠ e2.1 ∧ ¬ e1.1 <+: e2.1 ∧ ¬ e2.1 <+: e1.1) →
      (∀ e ∈ cs, Wf e.2) → Wf (.mk cs b)

theorem group_all_tok {seqs : List (List T)} {p : ℕ} {t : T} :
    ∀ x ∈ seqs.filter fun s => decide (s.get? p = some t),
      x.get? p = some t := by
  intro x hx
  exact of_decide_eq_true (List.mem_filter.mp hx).2

theorem groupKey_head {seqs : List (List T)} {p : ℕ} {t : T}
    (ht : t ∈ firstToks seqs p) :
    ∃ k, findOptimalSegment
      (seqs.filter fun s => decide (s.get? p = some t)) p = t :: k := by
  obtain ⟨s, hs, hsp⟩ := List.mem_filterMap.mp (List.mem_dedup.mp ht)
  have hmem : s ∈ seqs.filter fun s => decide (s.get? p = some t) :=
    List.mem_filter.mpr ⟨hs, decide_eq_true hsp⟩
  obtain ⟨first, rest, hg⟩ :=
    List.exists_cons_of_ne_nil (List.ne_nil_of_mem hmem)
  rw [hg]
  have hformer : ∀ x ∈ first :: rest, x.get? p = some t := by
    rw [← hg]
    exact group_all_tok
  have hfirst : first.get? p = some t := hformer first (by simp)
  have hall1 : allShareSeg (first :: rest) first p 1 = true :=
    (allShareSeg_iff (by simp)).mpr fun x hx =>
      ⟨by have := get?_some_lt (hformer x hx); omega, fun j hj => by
        match j, hj with
        | 0, _ =>
          simp only [Nat.add_zero]
          rw [hformer x hx, hfirst]⟩
  exact findOptimalSegment_head hfirst hall1

theorem build_wf : ∀ (n : ℕ) (seqs : List (List T)) (p : ℕ),
    maxLen seqs + 1 - p ≤ n → (buildSegmentedTrie seqs p).Wf := by
  intro n
  induction n with
  | zero =>
    intro seqs p h
    have hfe : (seqs.filter fun s => decide (p < s.length)) = [] := by
      rw [List.filter_eq_nil_iff]
      intro s hs
      rw [decide_eq_true_eq]
      have := le_maxLen hs
      omega
    rw [buildSegmentedTrie_eq_leaf hfe]
    exact Trie.Wf.mk (by simp) (by simp) (by simp)
  | succ n ih =>
    intro seqs p hn
    by_cases hfe : (seqs.filter fun s => decide (p < s.length)) = []
    · rw [buildSegmentedTrie_eq_leaf hfe]
      exact Trie.Wf.mk (by simp) (by simp) (by simp)
    · have hsub : ∀ s ∈ (seqs.filter fun s => decide (p < s.length)),
          s ∈ seqs := fun s hs => (List.mem_filter.mp hs).1
      have hvlt : ∀ s ∈ (seqs.filter fun s => decide (p < s.length)),
          p < s.length := fun s hs =>
        of_decide_eq_true (List.mem_filter.mp hs).2
      obtain ⟨sv, hsv⟩ := List.exists_mem_of_ne_nil _ hfe
      have hpmax : p < maxLen seqs + 1 := by
        have h1 := hvlt sv hsv
        have h2 := le_maxLen (hsub sv hsv)
        omega
      have hml : maxLen (seqs.filter fun s => decide (p < s.length)) ≤
          maxLen seqs := maxLen_le_of_mem hsub
      by_cases hpos : 0 < findLongestCommonPref
          (seqs.filter fun s => decide (p < s.length)) p
      · rw [build_eq_single hfe hpos]
        have h2 := two_le_of_lcp_pos hpos
        have hspec := @findLongestCommonPref_spec T _
          (seqs.filter fun s => decide (p < s.length)) p h2
        have hhd := headD_mem hfe
        have hcpLen := slice_length
          (length_ge_of_shared hspec.1 (by omega) hhd)
        refine Trie.Wf.mk ?_ ?_ ?_
        · intro e he
          rcases List.mem_singleton.mp he with rfl
          apply List.length_pos.mp
          show 0 < ((((seqs.filter fun s => decide (p < s.length)).headD
            []).drop p).take (findLongestCommonPref
            (seqs.filter fun s => decide (p < s.length)) p)).length
          rw [hcpLen]
          exact hpos
        · simp
        · intro e he
          rcases List.mem_singleton.mp he with rfl
          exact ih _ _ (by omega)
      · have hz : findLongestCommonPref
            (seqs.filter fun s => decide (p < s.length)) p = 0 := by omega
        rw [buildSegmentedTrie_eq_zero hfe hz, buildWithoutCommonPref_eq]
        have hentry : ∀ e, e ∈ insertAll
            (((firstToks (seqs.filter fun s => decide (p < s.length))
              p)).map fun t =>
              (findOptimalSegment ((seqs.filter fun s =>
                decide (p < s.length)).filter fun s =>
                decide (s.get? p = some t)) p,
               buildSegmentedTrie ((seqs.filter fun s =>
                decide (p < s.length)).filter fun s =>
                decide (s.get? p = some t))
                 (p + (findOptimalSegment ((seqs.filter fun s =>
                   decide (p < s.length)).filter fun s =>
                   decide (s.get? p = some t)) p).length))) →
            ∃ t ∈ firstToks (seqs.filter fun s =>
              decide (p < s.length)) p,
              e.1 = findOptimalSegment ((seqs.filter fun s =>
                decide (p < s.length)).filter fun s =>
                decide (s.get? p = some t)) p ∧
              (∃ k, e.1 = t :: k) ∧
              e.2 = buildSegmentedTrie ((seqs.filter fun s =>
                decide (p < s.length)).filter fun s =>
                decide (s.get? p = some t)) (p + e.1.length) := by
          intro e he
          obtain ⟨t, ht, hte⟩ := List.mem_map.mp (mem_insertAll he)
          obtain ⟨k, hk⟩ := groupKey_head ht
          refine ⟨t, ht, ?_, ⟨k, ?_⟩, ?_⟩
          · rw [← hte]
          · rw [← hte]
            exact hk
          · rw [← hte]
        refine Trie.Wf.mk ?_ ?_ ?_
        · intro e he
          obtain ⟨t, ht, -, ⟨k, hk⟩, -⟩ := hentry e he
          rw [hk]
          simp
        · have hnd : (insertAll
              (((firstToks (seqs.filter fun s => decide (p < s.length))
                p)).map fun t =>
                (findOptimalSegment ((seqs.filter fun s =>
                  decide (p < s.length)).filter fun s =>
                  decide (s.get? p = some t)) p,
                 buildSegmentedTrie ((seqs.filter fun s =>
                  decide (p < s.length)).filter fun s =>
                  decide (s.get? p = some t))
                   (p + (findOptimalSegment ((seqs.filter fun s =>
                     decide (p < s.length)).filter fun s =>
                     decide (s.get? p = some t)) p).length)))).Nodup :=
            sorted_insertAll.imp fun hab => by
              intro hc
              rw [hc] at hab
              exact lt_irrefl _ hab
          apply hnd.pairwise_of_forall_ne
          intro a ha b hb hne
          obtain ⟨t1, ht1, hs1, ⟨k1, hk1⟩, hv1⟩ := hentry a ha
          obtain ⟨t2, ht2, hs2, ⟨k2, hk2⟩, hv2⟩ := hentry b hb
          by_cases htt : t1 = t2
          · exfalso
            subst htt
            have hkeys : a.1 = b.1 := by rw [hs1, hs2]
            apply hne
            have hvals : a.2 = b.2 := by rw [hv1, hv2, hkeys]
            exact Prod.ext hkeys hvals
          · refine ⟨?_, ?_, ?_⟩
            · rw [hk1, hk2]
              intro hc
              exact htt (List.cons.inj hc).1
            · rw [hk1, hk2, List.cons_prefix_cons]
              rintro ⟨hc, -⟩
              exact htt hc
            · rw [hk1, hk2, List.cons_prefix_cons]
              rintro ⟨hc, -⟩
              exact htt hc.symm
        · intro e he
          obtain ⟨t, ht, -, ⟨k, hk⟩, hv⟩ := hentry e he
          rw [hv]
          apply ih
          have hml2 : maxLen ((seqs.filter fun s =>
              decide (p < s.length)).filter fun s =>
              decide (s.get? p = some t)) ≤ maxLen seqs :=
            maxLen_le_of_mem fun s hs =>
              hsub s (List.mem_filter.mp hs).1
          have hlen1 : 1 ≤ e.1.length := by
            rw [hk]
            simp
          omega

/-- C5: in every trie returned by `from_sequences`, sibling edge labels
are pairwise distinct, non-empty, and none is a token-wise prefix of
another. -/
theorem claim5_sibling_segments_invariant :
    ∀ seqs : List (List T), (fromSequences seqs).Wf :=
  fun seqs => build_wf (maxLen seqs + 1) seqs 0 (by omega)

theorem assocFind_cons {k : Seg T} {e : Seg T × Trie T}
    {l : List (Seg T × Trie T)} :
    assocFind k (e :: l) = if e.1 = k then some e.2 else assocFind k l :=
  rfl

theorem assocFind_insertAll {k : Seg T} :
    ∀ {entries : List (Seg T × Trie T)},
      assocFind k (insertAll entries) = assocFind k entries := by
  intro entries
  induction entries with
  | nil => rfl
  | cons a l ih =>
    simp only [insertAll, List.foldr_cons] at *
    rw [assocFind_keyInsert, ih, assocFind_cons]

theorem assocFind_eq_none_iff {k : Seg T} :
    ∀ {m : List (Seg T × Trie T)},
      assocFind k m = none ↔ k ∉ m.map Prod.fst := by
  intro m
  induction m with
  | nil => simp [assocFind]
  | cons a l ih =>
    rw [assocFind_cons]
    simp only [List.map_cons, List.mem_cons]
    by_cases ha : a.1 = k
    · rw [if_pos ha]
      constructor
      · intro h
        cases h
      · intro h
        exact absurd (Or.inl ha.symm) h
    · rw [if_neg ha, ih]
      constructor
      · intro h hc
        rcases hc with hc | hc
        · exact ha hc.symm
        · exact h hc
      · intro h hc
        exact h (Or.inr hc)

theorem assocFind_some_iff_nodup {k : Seg T} {v : Trie T} :
    ∀ {m : List (Seg T × Trie T)}, (m.map Prod.fst).Nodup →
      (assocFind k m = some v ↔ (k, v) ∈ m) := by
  intro m
  induction m with
  | nil => intro _; simp [assocFind]
  | cons a l ih =>
    intro hnd
    simp only [List.map_cons, List.nodup_cons] at hnd
    rw [assocFind_cons]
    simp only [List.mem_cons]
    by_cases ha : a.1 = k
    · rw [if_pos ha]
      constructor
      · intro h
        left
        obtain ⟨a1, a2⟩ := a
        simp only at ha h
        injection h with h2
        rw [← ha, ← h2]
      · intro h
        rcases h with h | h
        · rw [← h]
        · exfalso
          apply hnd.1
          rw [ha]
          exact List.mem_map.mpr ⟨(k, v), h, rfl⟩
    · rw [if_neg ha, ih hnd.2]
      constructor
      · exact Or.inr
      · intro h
        rcases h with h | h
        · exact absurd (by rw [← h]) ha
        · exact h

theorem assocFind_none_of_forall_lt {k : Seg T}
    {m : List (Seg T × Trie T)} (h : ∀ e ∈ m, k < e.1) :
    assocFind k m = none := by
  rw [assocFind_eq_none_iff]
  intro hc
  obtain ⟨e, he, hek⟩ := List.mem_map.mp hc
  have := h e he
  rw [hek] at this
  exact lt_irrefl k this

theorem map_ext_sorted :
    ∀ {m1 m2 : List (Seg T × Trie T)},
      m1.Pairwise (fun a b => a.1 < b.1) →
      m2.Pairwise (fun a b => a.1 < b.1) →
      (∀ k, assocFind k m1 = assocFind k m2) → m1 = m2 := by
  intro m1
  induction m1 with
  | nil =>
    intro m2 _ hs2 h
    match m2 with
    | [] => rfl
    | b :: l2 =>
      exfalso
      have hb := h b.1
      rw [assocFind_cons, if_pos rfl] at hb
      simp only [assocFind] at hb
      cases hb
  | cons a l1 ih =>
    intro m2 hs1 hs2 h
    match m2 with
    | [] =>
      exfalso
      have hb := h a.1
      rw [assocFind_cons, if_pos rfl] at hb
      simp only [assocFind] at hb
      cases hb
    | b :: l2 =>
      rcases List.pairwise_cons.mp hs1 with ⟨ha1, hl1⟩
      rcases List.pairwise_cons.mp hs2 with ⟨hb2, hl2⟩
      have hkey : a.1 = b.1 := by
        by_contra hne
        rcases lt_trichotomy a.1 b.1 with hlt | he | hlt
        · have h1 := h a.1
          rw [assocFind_cons, assocFind_cons, if_pos rfl,
            if_neg (fun hc : b.1 = a.1 => hne hc.symm),
            assocFind_none_of_forall_lt fun e he =>
              lt_trans hlt (hb2 e he)] at h1
          cases h1
        · exact hne he
        · have h1 := h b.1
          rw [assocFind_cons, assocFind_cons, if_pos rfl,
            if_neg (fun hc : a.1 = b.1 => hne hc),
            assocFind_none_of_forall_lt fun e he =>
              lt_trans hlt (ha1 e he)] at h1
          cases h1
      have hval : a.2 = b.2 := by
        have h1 := h a.1
        rw [assocFind_cons, assocFind_cons, if_pos rfl,
          if_pos hkey.symm] at h1
        exact Option.some_inj.mp h1
      have htail : ∀ k, assocFind k l1 = assocFind k l2 := by
        intro k
        by_cases hk : a.1 = k
        · rw [assocFind_none_of_forall_lt fun e he => hk ▸ ha1 e he,
            assocFind_none_of_forall_lt fun e he =>
              hk ▸ hkey ▸ hb2 e he]
        · have hx := h k
          rw [assocFind_cons, assocFind_cons, if_neg hk,
            if_neg (fun hc : b.1 = k => hk (hkey ▸ hc))] at hx
          exact hx
      have hab : a = b := Prod.ext hkey hval
      rw [hab, ih hl1 hl2 htail]

omit [LinearOrder T] in
theorem maxLen_eq_of_mem_iff {l1 l2 : List (List T)}
    (h : ∀ s, s ∈ l1 ↔ s ∈ l2) : maxLen l1 = maxLen l2 :=
  le_antisymm (maxLen_le_of_mem fun s hs => (h s).mp hs)
    (maxLen_le_of_mem fun s hs => (h s).mpr hs)

omit [LinearOrder T] in
theorem any_eq_of_mem_iff {l1 l2 : List (List T)} {f : List T → Bool}
    (h : ∀ s, s ∈ l1 ↔ s ∈ l2) : l1.any f = l2.any f := by
  rw [Bool.eq_iff_iff, List.any_eq_true, List.any_eq_true]
  constructor
  · rintro ⟨x, hx, hfx⟩
    exact ⟨x, (h x).mp hx, hfx⟩
  · rintro ⟨x, hx, hfx⟩
    exact ⟨x, (h x).mpr hx, hfx⟩

theorem dedup_length_eq_of_mem_iff {α : Type} [DecidableEq α]
    {l1 l2 : List α} (h : ∀ a, a ∈ l1 ↔ a ∈ l2) :
    l1.dedup.length = l2.dedup.length := by
  rw [← List.card_toFinset, ← List.card_toFinset]
  congr 1
  ext a
  simp only [List.mem_toFinset]
  exact h a

omit [LinearOrder T] in
theorem two_le_length_of_mem_ne {l : List (List T)} {a b : List T}
    (ha : a ∈ l) (hb : b ∈ l) (hne : a ≠ b) : 2 ≤ l.length := by
  match l with
  | [] => cases ha
  | [x] =>
    rcases List.mem_singleton.mp ha with rfl
    rcases List.mem_singleton.mp hb with rfl
    exact absurd rfl hne
  | x :: y :: t => simp

omit [LinearOrder T] in
theorem exists_get?_of_lt {s : List T} {p : ℕ} (h : p < s.length) :
    ∃ t, s.get? p = some t := by
  cases hq : s.get? p with
  | none =>
    rw [List.get?_eq_getElem?] at hq
    rw [List.getElem?_eq_none_iff] at hq
    omega
  | some t => exact ⟨t, rfl⟩

theorem mem_firstToks {seqs : List (List T)} {p : ℕ} {t : T} :
    t ∈ firstToks seqs p ↔ ∃ s ∈ seqs, s.get? p = some t := by
  rw [firstToks, List.mem_dedup, List.mem_filterMap]

/-- Normal form of the builder when all still-running sequences are one
and the same sequence `s`: a single edge carrying the whole remainder of
`s` to a non-terminal leaf. -/
theorem build_const {seqs : List (List T)} {p : ℕ} {s : List T}
    (hfe : (seqs.filter fun x => decide (p < x.length)) ≠ [])
    (hall : ∀ x ∈ (seqs.filter fun x => decide (p < x.length)), x = s) :
    buildSegmentedTrie seqs p =
      Trie.mk [(s.drop p, Trie.mk [] false)]
        (seqs.any fun x => decide (x.length = p)) := by
  obtain ⟨sv, hsv⟩ := List.exists_mem_of_ne_nil _ hfe
  have hs : sv = s := hall sv hsv
  have hp : p < s.length := by
    have hlt := of_decide_eq_true (List.mem_filter.mp hsv).2
    rw [hs] at hlt
    exact hlt
  have hchild : buildSegmentedTrie
      (seqs.filter fun x => decide (p < x.length)) s.length =
      Trie.mk [] false := by
    apply buildSegmentedTrie_eq_leaf
    rw [List.filter_eq_nil_iff]
    intro x hx
    rw [decide_eq_true_eq, hall x hx]
    omega
  have htake : (s.drop p).take (s.length - p) = s.drop p := by
    have hlen : (s.drop p).length = s.length - p := List.length_drop p s
    rw [← hlen]
    exact List.take_length _
  have hoff : p + (s.length - p) = s.length := by omega
  by_cases hpos : 0 < findLongestCommonPref
      (seqs.filter fun x => decide (p < x.length)) p
  · rw [build_eq_single hfe hpos]
    have h2 := two_le_of_lcp_pos hpos
    have hspec := @findLongestCommonPref_spec T _
      (seqs.filter fun x => decide (p < x.length)) p h2
    have hLle : p + findLongestCommonPref
        (seqs.filter fun x => decide (p < x.length)) p ≤ s.length := by
      have := length_ge_of_shared hspec.1 (by omega) hsv
      rw [hs] at this
      exact this
    have hLge : s.length ≤ p + findLongestCommonPref
        (seqs.filter fun x => decide (p < x.length)) p := by
      by_contra hc
      apply hspec.2
      obtain ⟨x0, hx0⟩ := exists_get?_of_lt
        (show p + findLongestCommonPref
          (seqs.filter fun x => decide (p < x.length)) p < s.length by
          omega)
      exact ⟨x0, fun y hy => by rw [hall y hy]; exact hx0⟩
    have hL : findLongestCommonPref
        (seqs.filter fun x => decide (p < x.length)) p =
        s.length - p := by omega
    have hhds : ((seqs.filter fun x =>
        decide (p < x.length)).headD []) = s := hall _ (headD_mem hfe)
    rw [hL, hhds, htake, hoff, hchild]
  · have hz : findLongestCommonPref
        (seqs.filter fun x => decide (p < x.length)) p = 0 := by omega
    rw [buildSegmentedTrie_eq_zero hfe hz, buildWithoutCommonPref_eq]
    obtain ⟨t0, ht0⟩ := exists_get?_of_lt hp
    have htoks : firstToks
        (seqs.filter fun x => decide (p < x.length)) p = [t0] := by
      rw [firstToks]
      apply dedup_all_eq
      · intro hc
        have hmm : t0 ∈ (seqs.filter fun x =>
            decide (p < x.length)).filterMap fun s => s.get? p :=
          List.mem_filterMap.mpr ⟨sv, hsv, by rw [hs]; exact ht0⟩
        rw [hc] at hmm
        cases hmm
      · intro a ha
        obtain ⟨x, hx, hxa⟩ := List.mem_filterMap.mp ha
        rw [hall x hx, ht0] at hxa
        exact (Option.some_inj.mp hxa).symm
    rw [htoks]
    simp only [List.map]
    have hgroup : ((seqs.filter fun x => decide (p < x.length)).filter
        fun x => decide (x.get? p = some t0)) =
        (seqs.filter fun x => decide (p < x.length)) :=
      List.filter_eq_self.mpr fun x hx =>
        decide_eq_true (by rw [hall x hx]; exact ht0)
    rw [hgroup]
    have hopt : findOptimalSegment
        (seqs.filter fun x => decide (p < x.length)) p = s.drop p :=
      findOptimalSegment_all_eq hfe hall hp
    rw [hopt]
    have hdlen : (s.drop p).length = s.length - p := List.length_drop p s
    rw [hdlen, hoff, hchild]
    rfl

theorem insertAll_map_ext {A : Type} {toks1 toks2 : List A}
    {f1 f2 : A → Seg T × Trie T}
    (hmem : ∀ t, t ∈ toks1 ↔ t ∈ toks2)
    (hf : ∀ t ∈ toks1, f1 t = f2 t)
    (hnd1 : ((toks1.map f1).map Prod.fst).Nodup)
    (hnd2 : ((toks2.map f2).map Prod.fst).Nodup) :
    insertAll (toks1.map f1) = insertAll (toks2.map f2) := by
  apply map_ext_sorted sorted_insertAll sorted_insertAll
  intro k
  rw [assocFind_insertAll, assocFind_insertAll]
  cases h1 : assocFind k (toks1.map f1) with
  | some v =>
    obtain ⟨t, ht, hft⟩ :=
      List.mem_map.mp ((assocFind_some_iff_nodup hnd1).mp h1)
    exact ((assocFind_some_iff_nodup hnd2).mpr
      (List.mem_map.mpr ⟨t, (hmem t).mp ht, by rw [← hf t ht, hft]⟩)).symm
  | none =>
    rw [assocFind_eq_none_iff] at h1
    symm
    rw [assocFind_eq_none_iff]
    intro hk2
    obtain ⟨e, he, hek⟩ := List.mem_map.mp hk2
    obtain ⟨t, ht2, hf2t⟩ := List.mem_map.mp he
    apply h1
    exact List.mem_map.mpr ⟨f1 t,
      List.mem_map.mpr ⟨t, (hmem t).mpr ht2, rfl⟩,
      by rw [hf t ((hmem t).mpr ht2), hf2t, hek]⟩

theorem entries_keys_nodup {V : List (List T)} {p : ℕ} :
    (((firstToks V p).map fun t =>
      (findOptimalSegment (V.filter fun s => decide (s.get? p = some t)) p,
       buildSegmentedTrie (V.filter fun s => decide (s.get? p = some t))
         (p + (findOptimalSegment
           (V.filter fun s => decide (s.get? p = some t)) p).length))).map
      Prod.fst).Nodup := by
  rw [List.map_map]
  refine List.Nodup.map_on ?_ ?_
  · intro x hx y hy hxy
    simp only [Function.comp] at hxy
    obtain ⟨kx, hkx⟩ := groupKey_head hx
    obtain ⟨ky, hky⟩ := groupKey_head hy
    rw [hkx, hky] at hxy
    simp only [List.cons.injEq] at hxy
    exact hxy.1
  · rw [firstToks]
    exact List.nodup_dedup _

/-- Master extensionality theorem for the builder: the segmented trie
built by `build_segmented_trie` (trie.rs lines 27-75) depends only on
which sequences are present in the input list, not on their order or
multiplicity, because every step (the still-running filter, the
terminal `any`, the longest-common-prefix loop, the first-token
grouping and the per-group optimal segments) is membership-invariant
and the resulting children map is a sorted map determined by its
lookups. -/
theorem build_ext : ∀ (n : ℕ) (seqs1 seqs2 : List (List T)) (p : ℕ),
    maxLen seqs1 + 1 - p ≤ n →
    (∀ s, s ∈ seqs1 ↔ s ∈ seqs2) →
    buildSegmentedTrie seqs1 p = buildSegmentedTrie seqs2 p := by
  intro n
  induction n with
  | zero =>
    intro seqs1 seqs2 p hn hmem
    have hml := maxLen_eq_of_mem_iff hmem
    have hfe1 : seqs1.filter (fun s => decide (p < s.length)) = [] := by
      rw [List.filter_eq_nil_iff]
      intro x hx
      rw [decide_eq_true_eq]
      have := le_maxLen hx
      omega
    have hfe2 : seqs2.filter (fun s => decide (p < s.length)) = [] := by
      rw [List.filter_eq_nil_iff]
      intro x hx
      rw [decide_eq_true_eq]
      have := le_maxLen hx
      omega
    rw [buildSegmentedTrie_eq_leaf hfe1, buildSegmentedTrie_eq_leaf hfe2]
  | succ n ih =>
    intro seqs1 seqs2 p hn hmem
    have hml := maxLen_eq_of_mem_iff hmem
    have hvmem : ∀ s, s ∈ seqs1.filter (fun s => decide (p < s.length)) ↔
        s ∈ seqs2.filter (fun s => decide (p < s.length)) := by
      intro s
      constructor
      · intro hx
        exact List.mem_filter.mpr
          ⟨(hmem s).mp (List.mem_filter.mp hx).1, (List.mem_filter.mp hx).2⟩
      · intro hx
        exact List.mem_filter.mpr
          ⟨(hmem s).mpr (List.mem_filter.mp hx).1, (List.mem_filter.mp hx).2⟩
    by_cases hfe : seqs1.filter (fun s => decide (p < s.length)) = []
    · have hfe2 : seqs2.filter (fun s => decide (p < s.length)) = [] := by
        rw [List.eq_nil_iff_forall_not_mem] at hfe ⊢
        intro x hx
        exact hfe x ((hvmem x).mpr hx)
      rw [buildSegmentedTrie_eq_leaf hfe, buildSegmentedTrie_eq_leaf hfe2]
    · have hfe2 : seqs2.filter (fun s => decide (p < s.length)) ≠ [] := by
        intro hc
        apply hfe
        rw [List.eq_nil_iff_forall_not_mem] at hc ⊢
        intro x hx
        exact hc x ((hvmem x).mp hx)
      by_cases hconst : ∀ x ∈ seqs1.filter (fun s => decide (p < s.length)),
          x = (seqs1.filter (fun s => decide (p < s.length))).headD []
      · have hconst2 : ∀ x ∈ seqs2.filter (fun s => decide (p < s.length)),
            x = (seqs1.filter (fun s => decide (p < s.length))).headD [] :=
          fun x hx => hconst x ((hvmem x).mpr hx)
        rw [build_const hfe hconst, build_const hfe2 hconst2,
          any_eq_of_mem_iff hmem]
      · push_neg at hconst
        obtain ⟨w, hw, hwne⟩ := hconst
        have h2a := two_le_length_of_mem_ne hw (headD_mem hfe) hwne
        have h2b := two_le_length_of_mem_ne ((hvmem w).mp hw)
          ((hvmem _).mp (headD_mem hfe)) hwne
        have hL : findLongestCommonPref
            (seqs1.filter (fun s => decide (p < s.length))) p =
            findLongestCommonPref
            (seqs2.filter (fun s => decide (p < s.length))) p :=
          lcp_eq_of_mem_iff hvmem h2a h2b
        have hsub1 : ∀ s ∈ seqs1.filter (fun s => decide (p < s.length)),
            s ∈ seqs1 := fun s hs => (List.mem_filter.mp hs).1
        by_cases hpos : 0 < findLongestCommonPref
            (seqs1.filter (fun s => decide (p < s.length))) p
        · rw [build_eq_single hfe hpos,
            build_eq_single hfe2 (hL ▸ hpos), any_eq_of_mem_iff hmem]
          have hslice :
              (((seqs1.filter (fun s => decide (p < s.length))).headD
                []).drop p).take (findLongestCommonPref
                (seqs1.filter (fun s => decide (p < s.length))) p) =
              (((seqs2.filter (fun s => decide (p < s.length))).headD
                []).drop p).take (findLongestCommonPref
                (seqs2.filter (fun s => decide (p < s.length))) p) := by
            rw [← hL]
            exact slice_eq_of_shared (findLongestCommonPref_spec h2a).1
              (headD_mem hfe) ((hvmem _).mpr (headD_mem hfe2))
          have hrec :
              buildSegmentedTrie
                (seqs1.filter (fun s => decide (p < s.length)))
                (p + findLongestCommonPref
                  (seqs1.filter (fun s => decide (p < s.length))) p) =
              buildSegmentedTrie
                (seqs2.filter (fun s => decide (p < s.length)))
                (p + findLongestCommonPref
                  (seqs2.filter (fun s => decide (p < s.length))) p) := by
            rw [← hL]
            apply ih
            · have hm1 : maxLen
                  (seqs1.filter (fun s => decide (p < s.length))) ≤
                  maxLen seqs1 := maxLen_le_of_mem hsub1
              omega
            · exact hvmem
          rw [hslice, hrec]
        · have hz1 : findLongestCommonPref
              (seqs1.filter (fun s => decide (p < s.length))) p = 0 := by
            omega
          have hz2 : findLongestCommonPref
              (seqs2.filter (fun s => decide (p < s.length))) p = 0 := by
            omega
          rw [buildSegmentedTrie_eq_zero hfe hz1,
            buildSegmentedTrie_eq_zero hfe2 hz2, any_eq_of_mem_iff hmem]
          congr 1
          rw [buildWithoutCommonPref_eq, buildWithoutCommonPref_eq]
          apply insertAll_map_ext
          · intro t
            rw [mem_firstToks, mem_firstToks]
            constructor
            · rintro ⟨s, hs, hst⟩
              exact ⟨s, (hvmem s).mp hs, hst⟩
            · rintro ⟨s, hs, hst⟩
              exact ⟨s, (hvmem s).mpr hs, hst⟩
          · intro t ht
            have hgmem : ∀ x,
                x ∈ (seqs1.filter (fun s => decide (p < s.length))).filter
                  (fun s => decide (s.get? p = some t)) ↔
                x ∈ (seqs2.filter (fun s => decide (p < s.length))).filter
                  (fun s => decide (s.get? p = some t)) := by
              intro x
              constructor
              · intro hx
                exact List.mem_filter.mpr ⟨(hvmem x).mp
                  (List.mem_filter.mp hx).1, (List.mem_filter.mp hx).2⟩
              · intro hx
                exact List.mem_filter.mpr ⟨(hvmem x).mpr
                  (List.mem_filter.mp hx).1, (List.mem_filter.mp hx).2⟩
            obtain ⟨s0, hs0, hs0t⟩ := mem_firstToks.mp ht
            have hs0g : s0 ∈ (seqs1.filter
                (fun s => decide (p < s.length))).filter
                (fun s => decide (s.get? p = some t)) :=
              List.mem_filter.mpr ⟨hs0, decide_eq_true hs0t⟩
            have hgne1 := List.ne_nil_of_mem hs0g
            have hgne2 := List.ne_nil_of_mem ((hgmem s0).mp hs0g)
            have hvg : ∀ x ∈ (seqs1.filter
                (fun s => decide (p < s.length))).filter
                (fun s => decide (s.get? p = some t)), p < x.length :=
              fun x hx => get?_some_lt (group_all_tok x hx)
            have hopt := findOptimalSegment_eq_of_mem_iff hgmem hgne1 hgne2
              hvg (fun x hx y hy => by
                rw [group_all_tok x hx, group_all_tok y hy])
            have hbuild :
                buildSegmentedTrie
                  ((seqs1.filter (fun s => decide (p < s.length))).filter
                    (fun s => decide (s.get? p = some t)))
                  (p + (findOptimalSegment
                    ((seqs1.filter (fun s => decide (p < s.length))).filter
                      (fun s => decide (s.get? p = some t))) p).length) =
                buildSegmentedTrie
                  ((seqs2.filter (fun s => decide (p < s.length))).filter
                    (fun s => decide (s.get? p = some t)))
                  (p + (findOptimalSegment
                    ((seqs1.filter (fun s => decide (p < s.length))).filter
                      (fun s => decide (s.get? p = some t))) p).length) := by
              apply ih
              · have hm1 : maxLen
                    ((seqs1.filter (fun s => decide (p < s.length))).filter
                      (fun s => decide (s.get? p = some t))) ≤
                    maxLen seqs1 :=
                  maxLen_le_of_mem fun x hx =>
                    hsub1 x (List.mem_filter.mp hx).1
                have hlen1 := findOptimalSegment_length_pos hgne1 hvg
                omega
              · exact hgmem
            rw [← hopt]
            rw [hbuild]
          · exact entries_keys_nodup
          · exact entries_keys_nodup

/-- C6: appending duplicates of sequences already present leaves the
trie built by `TrieNode::from_sequences` (trie.rs lines 24-26) unchanged:
for every input list `seqs` and every list `dups` of sequences each of
which already occurs in `seqs`, building from `seqs ++ dups` and from
`seqs` yields equal tries — same edges and same terminal flags at every
node. -/
theorem claim6_duplicates_idempotent {seqs dups : List (List T)}
    (h : ∀ d ∈ dups, d ∈ seqs) :
    fromSequences (seqs ++ dups) = fromSequences seqs := by
  rw [fromSequences, fromSequences]
  apply build_ext (maxLen (seqs ++ dups) + 1) _ _ 0 (by omega)
  intro s
  rw [List.mem_append]
  constructor
  · rintro (hs | hd)
    · exact hs
    · exact h s hd
  · intro hs
    exact Or.inl hs

theorem claim6_duplicates_idempotent_witness :
    (∀ d ∈ [[0]], d ∈ [([0] : List ℕ), [0, 1]]) ∧
      fromSequences ([[0], [0, 1]] ++ [[0]]) =
        fromSequences [([0] : List ℕ), [0, 1]] :=
  ⟨by decide, claim6_duplicates_idempotent (by decide)⟩

/-- C10: `TrieNode::from_sequences` (trie.rs lines 24-26) is invariant
under permutation of its input list: for every list of sequences and
every permutation of it the two resulting tries are equal as trees —
same child maps and same terminal flags — even though the per-group
optimal-segment computation (trie.rs lines 198-237) reads the group's
first sequence. -/
theorem claim10_permutation_invariant {seqs1 seqs2 : List (List T)}
    (h : seqs1.Perm seqs2) :
    fromSequences seqs1 = fromSequences seqs2 := by
  rw [fromSequences, fromSequences]
  exact build_ext (maxLen seqs1 + 1) seqs1 seqs2 0 (by omega)
    fun s => h.mem_iff

theorem claim10_permutation_invariant_witness :
    ([[0], [1, 2]] : List (List ℕ)).Perm [[1, 2], [0]] ∧
      fromSequences [([0] : List ℕ), [1, 2]] =
        fromSequences [[1, 2], [0]] :=
  ⟨by decide, claim10_permutation_invariant (by decide)⟩

end Abstrie
